import Mathlib

/-!
Verification development for the 8-puzzle solver (`8Puzzle.py`).

The program is a best-first search over 3×3 sliding-tile boards.  We embed the
board model (`Board`, `findPosition`, `findAvailableMoves`, `generateChildren`),
the four heuristic evaluators (`simpleHeuristic`, `manhattanHeuristic`,
`manhattanEnhancedHeuristic`, `euclidianHeuristic`) and the search engine
(`Puzzle.solve`) as pure Lean functions, and prove the specification claims
about them.

Conventions of the embedding:
* a Python board (list of three lists of three ints) is `Board := List (List ℕ)`;
* Python `None` results become `Option.none`; a Python run-time crash
  (`IndexError` from `list.pop(0)` on an empty list, `TypeError` from
  unpacking the `None` returned by `findPosition`) is modelled by the
  dedicated `stuck`/`none` outcomes of the step functions;
* Python float scores are idealised as real numbers (`ℝ`);
* `list.sort(key=...)` (Timsort, a stable sort) is modelled by
  `List.insertionSort`, which is also stable: a stable comparison sort of a
  given list by a given key is unique, so the two agree elementwise.
-/

abbrev Board := List (List ℕ)

/-- The fixed goal board `[[1, 2, 3], [4, 5, 6], [7, 8, 0]]` (`self.expectedResult`). -/
def expectedResult : Board := [[1, 2, 3], [4, 5, 6], [7, 8, 0]]

/-- Index into a row of a board.  Python raises on an out-of-range index; the
sentinel `99` is never a tile value, and every lookup performed by the program
is guarded so the sentinel is never consulted on the executed paths. -/
def cellAt (b : Board) (r c : ℕ) : ℕ := (b.getD r []).getD c 99

/-- Scan one row for `number`, returning the column of the first occurrence
(the inner `for column in range(...)` loop of `Node.findPosition`). -/
def findInRow : List ℕ → ℕ → Option ℕ
  | [], _ => none
  | x :: xs, number => if x = number then some 0 else (findInRow xs number).map (· + 1)

/-- Row-by-row scan, carrying the index of the current row. -/
def findPositionFrom : List (List ℕ) → ℕ → ℕ → Option (ℕ × ℕ)
  | [], _, _ => none
  | row :: rest, number, r =>
    match findInRow row number with
    | some c => some (r, c)
    | none => findPositionFrom rest number (r + 1)

/-- `Node.findPosition`: the `(row, column)` of the first occurrence of
`number`, scanning rows top to bottom and columns left to right.  Python falls
off the end of the loops and returns `None` when the value is absent. -/
def findPosition (data : Board) (number : ℕ) : Option (ℕ × ℕ) :=
  findPositionFrom data number 0

/-- Total wrapper for `findPosition` used by the three distance evaluators,
which subscript the result as `position1[0]`, `position1[1]` without a `None`
check.  Under the board invariant every value `0..8` is present, so the
`(0, 0)` default is never consulted there (absence instead crashes Python
with a `TypeError` at the subscript).  The misplaced-tile evaluator does not
subscript — it compares the raw results — and is modelled on `findPosition`
directly; see the claim about `findPosition`. -/
def findPos (data : Board) (number : ℕ) : ℕ × ℕ :=
  (findPosition data number).getD (0, 0)

/-- Board invariant: a 3×3 grid holding each digit `0..8` exactly once. -/
def validBoard (b : Board) : Prop :=
  b.map List.length = [3, 3, 3] ∧ ∀ v < 9, b.flatten.count v = 1

instance : DecidablePred validBoard := fun b => by
  unfold validBoard; infer_instance

/-- Search-tree node: `data`, `parent`, `cost`, `heuristic` and the score
`g = cost + heuristic` (Python `Node.__init__`).  `heuristic` and `g` are real
numbers because the Euclidean evaluator stores square roots. -/
inductive Node where
  | mk (data : Board) (parent : Option Node) (cost : ℕ) (heuristic : ℝ) (g : ℝ)

def Node.data : Node → Board
  | .mk d _ _ _ _ => d

def Node.parent : Node → Option Node
  | .mk _ p _ _ _ => p

def Node.cost : Node → ℕ
  | .mk _ _ c _ _ => c

def Node.heuristic : Node → ℝ
  | .mk _ _ _ h _ => h

def Node.g : Node → ℝ
  | .mk _ _ _ _ s => s

/-- Build a node the way `Node.__init__` does: `g` is set to
`cost + heuristic`. -/
def Node.make (data : Board) (parent : Option Node) (cost : ℕ) (heuristic : ℝ) : Node :=
  .mk data parent cost heuristic (cost + heuristic)

/-- The root node `Node(data)`: no parent, cost `0`, heuristic `0`. -/
def rootNode (data : Board) : Node := Node.make data none 0 0

/-- `Node.copyNode` rebuilds the grid element by element (a deep copy).  On
immutable values the copy is the value itself. -/
def copyNode (b : Board) : Board := b.map (fun row => row.map (fun x => x))

/-- `Node.findAvailableMoves`: locate the blank, then offer the four
orthogonal target cells in the order up, left, down, right, each guarded by
its bounds test exactly as in the source (`row > 0 and row <= 2`, etc.).
Unpacking the `None` of a board with no blank is a Python `TypeError`,
modelled by propagating `none`. -/
def findAvailableMoves (nd : Node) : Option (List (ℕ × ℕ)) :=
  (findPosition nd.data 0).map fun rc =>
    (if 0 < rc.1 ∧ rc.1 ≤ 2 then [(rc.1 - 1, rc.2)] else []) ++
    (if 0 < rc.2 ∧ rc.2 ≤ 2 then [(rc.1, rc.2 - 1)] else []) ++
    (if 0 ≤ rc.1 ∧ rc.1 < 2 then [(rc.1 + 1, rc.2)] else []) ++
    (if 0 ≤ rc.2 ∧ rc.2 < 2 then [(rc.1, rc.2 + 1)] else [])

/-- Write `v` at cell `(r, c)`. -/
def setCell (b : Board) (r c v : ℕ) : Board := b.set r ((b.getD r []).set c v)

/-- One loop body of `Node.generateChildren`: copy the board, swap the blank
with the target cell (the two assignments read from the original `self.data`),
and build the child with `parent = self`, `cost = self.cost + 1` and the
default heuristic `0`. -/
def childFromMove (nd : Node) (blank move : ℕ × ℕ) : Node :=
  let copied := copyNode nd.data
  let copied := setCell copied move.1 move.2 (cellAt nd.data blank.1 blank.2)
  let copied := setCell copied blank.1 blank.2 (cellAt nd.data move.1 move.2)
  Node.make copied (some nd) (nd.cost + 1) 0

/-- The `for move in availableMoves` loop: `findPosition(0)` is re-run on each
iteration (same result every time). -/
def generateChildrenGo (nd : Node) : List (ℕ × ℕ) → Option (List Node)
  | [] => some []
  | move :: rest =>
    match findPosition nd.data 0 with
    | none => none
    | some blank =>
      match generateChildrenGo nd rest with
      | none => none
      | some cs => some (childFromMove nd blank move :: cs)

/-- `Node.generateChildren`. -/
def generateChildren (nd : Node) : Option (List Node) :=
  match findAvailableMoves nd with
  | none => none
  | some availableMoves => generateChildrenGo nd availableMoves

/-- Contribution of tile value `i` in `Puzzle.simpleHeuristic`: `1` when the
tile's position differs from its goal position.  The comparison
`position1 != position2` is on the raw `findPosition` results — no
unpacking — so an absent tile (`None`) simply compares unequal to the goal
tuple and counts as misplaced, without any crash. -/
def simpleContrib (b : Board) (i : ℕ) : ℤ :=
  if findPosition b i ≠ findPosition expectedResult i then 1 else 0

/-- Total added to the heuristic by `Puzzle.simpleHeuristic` (`for i in range(9)`). -/
def simpleSum (b : Board) : ℤ := ((List.range 9).map (simpleContrib b)).sum

/-- Contribution of tile value `i` in `Puzzle.manhattanHeuristic`:
`abs(Δrow) + abs(Δcol)` against the goal position. -/
def manhContrib (b : Board) (i : ℕ) : ℤ :=
  |((findPos b i).1 : ℤ) - ((findPos expectedResult i).1 : ℤ)| +
  |((findPos b i).2 : ℤ) - ((findPos expectedResult i).2 : ℤ)|

/-- Total added to the heuristic by `Puzzle.manhattanHeuristic`. -/
def manhSum (b : Board) : ℤ := ((List.range 9).map (manhContrib b)).sum

/-- Contribution of tile value `i` in `Puzzle.manhattanEnhancedHeuristic`,
transcribed statement by statement.  The Python local `position2` is first
the goal position of `i`, is overwritten by the board position of `i2 = i+1`
when `1 ≤ i+1 ≤ 8`, and is overwritten again by the board position of
`i2 = i+3` when `1 ≤ i+3 ≤ 8`; the `i3` branches read whatever `position2`
currently holds.  Each assignment to the mutable locals becomes one `let`
(`position2a`/`position2b`, `manhattanDistance1..4`).  Subtractions are on ℕ
but every subtraction is guarded (`position[..] > 0`) exactly as the
short-circuit `and` guards the negative index in Python. -/
def enhContrib (b : Board) (i : ℕ) : ℤ :=
  let position1 := findPos b i
  let position2 := findPos expectedResult i
  let manhattanDistance : ℤ :=
    |(position1.1 : ℤ) - (position2.1 : ℤ)| + |(position1.2 : ℤ) - (position2.2 : ℤ)|
  let md : ℤ := 4
  let i2 := i + 1
  let i3 := i - 1
  let position2a := if 1 ≤ i2 ∧ i2 ≤ 8 then findPos b i2 else position2
  let manhattanDistance1 :=
    if 1 ≤ i2 ∧ i2 ≤ 8 then
      if 0 < position1.2 ∧ position2a.2 < 2 ∧
         cellAt expectedResult position1.1 (position1.2 - 1) = i ∧
         cellAt expectedResult position2a.1 (position2a.2 + 1) = i2 then
        md
      else manhattanDistance
    else manhattanDistance
  let manhattanDistance2 :=
    if 1 ≤ i3 ∧ i3 ≤ 8 then
      let position3 := findPos b i3
      if 0 < position2a.2 ∧ position3.2 < 2 ∧
         cellAt expectedResult position2a.1 (position2a.2 - 1) = i2 ∧
         cellAt expectedResult position3.1 (position3.2 + 1) = i3 then
        md
      else manhattanDistance1
    else manhattanDistance1
  let i2' := i + 3
  let i3' := i - 3
  let position2b := if 1 ≤ i2' ∧ i2' ≤ 8 then findPos b i2' else position2a
  let manhattanDistance3 :=
    if 1 ≤ i2' ∧ i2' ≤ 8 then
      if 0 < position1.1 ∧ position2b.1 < 2 ∧
         cellAt expectedResult (position1.1 - 1) position1.2 = i ∧
         cellAt expectedResult (position2b.1 + 1) position2b.2 = i2' then
        md
      else manhattanDistance2
    else manhattanDistance2
  let manhattanDistance4 :=
    if 1 ≤ i3' ∧ i3' ≤ 8 then
      let position3 := findPos b i3'
      if 0 < position2b.1 ∧ position3.1 < 2 ∧
         cellAt expectedResult (position2b.1 - 1) position2b.2 = i2' ∧
         cellAt expectedResult (position3.1 + 1) position3.2 = i3' then
        md
      else manhattanDistance3
    else manhattanDistance3
  manhattanDistance4

/-- Total added to the heuristic by `Puzzle.manhattanEnhancedHeuristic`. -/
def enhSum (b : Board) : ℤ := ((List.range 9).map (enhContrib b)).sum

/-- Tile `v` sits one column to the right of its goal cell, in the goal row. -/
def displacedRight (b : Board) (v : ℕ) : Prop :=
  (findPos b v).1 = (findPos expectedResult v).1 ∧
  (findPos b v).2 = (findPos expectedResult v).2 + 1

/-- Tile `v` sits one column to the left of its goal cell, in the goal row. -/
def displacedLeft (b : Board) (v : ℕ) : Prop :=
  (findPos b v).1 = (findPos expectedResult v).1 ∧
  (findPos b v).2 + 1 = (findPos expectedResult v).2

/-- Tile `v` sits one row below its goal cell, in the goal column. -/
def displacedDown (b : Board) (v : ℕ) : Prop :=
  (findPos b v).1 = (findPos expectedResult v).1 + 1 ∧
  (findPos b v).2 = (findPos expectedResult v).2

/-- Tile `v` sits one row above its goal cell, in the goal column. -/
def displacedUp (b : Board) (v : ℕ) : Prop :=
  (findPos b v).1 + 1 = (findPos expectedResult v).1 ∧
  (findPos b v).2 = (findPos expectedResult v).2

/-- What the override condition of `Puzzle.manhattanEnhancedHeuristic`
actually tests, stated declaratively (the amended form of the claim about
that evaluator): the contribution of tile `i` is forced to `4` when
(a) `i` is displaced one step right of its goal cell and `i+1 ≤ 8` is
displaced one step left of its goal cell; or (b) for `2 ≤ i ≤ 7`, `i+1` is
displaced one step right of its goal cell and `i-1` one step left of its —
this branch compares the neighbors `i+1` and `i-1` with each other, not with
`i`, because the code reads the stale loop variable `position2`; or (c) for
`i ≤ 5`, `i` is displaced one step below its goal cell and `i+3` one step
above its goal cell.  The `i-3` branch of the code can never fire: it would
need a tile whose goal cell is in row `3`. -/
def enhOverride (b : Board) (i : ℕ) : Prop :=
  (i + 1 ≤ 8 ∧ displacedRight b i ∧ displacedLeft b (i + 1)) ∨
  (2 ≤ i ∧ i ≤ 7 ∧ displacedRight b (i + 1) ∧ displacedLeft b (i - 1)) ∨
  (i ≤ 5 ∧ displacedDown b i ∧ displacedUp b (i + 3))

instance (b : Board) (i : ℕ) : Decidable (enhOverride b i) := by
  unfold enhOverride displacedRight displacedLeft displacedDown displacedUp
  infer_instance

/-- Literal reading of the claim's override condition, for comparison with
the code: tile `i` and a neighbor value `m ∈ {i+1, i-1, i+3, i-3} ∩ [1,8]`
are recorded as one step apart in the same row or column of the goal board,
and the current board places `i` and `m` with that same relative offset
(oriented as in the goal). -/
def specNeighborMatch (b : Board) (i m : ℕ) : Prop :=
  1 ≤ m ∧ m ≤ 8 ∧
  (((findPos expectedResult m).1 = (findPos expectedResult i).1 ∧
    (findPos expectedResult m).2 = (findPos expectedResult i).2 + 1 ∧
    (findPos b m).1 = (findPos b i).1 ∧ (findPos b m).2 = (findPos b i).2 + 1) ∨
   ((findPos expectedResult m).1 = (findPos expectedResult i).1 ∧
    (findPos expectedResult m).2 + 1 = (findPos expectedResult i).2 ∧
    (findPos b m).1 = (findPos b i).1 ∧ (findPos b m).2 + 1 = (findPos b i).2) ∨
   ((findPos expectedResult m).1 = (findPos expectedResult i).1 + 1 ∧
    (findPos expectedResult m).2 = (findPos expectedResult i).2 ∧
    (findPos b m).1 = (findPos b i).1 + 1 ∧ (findPos b m).2 = (findPos b i).2) ∨
   ((findPos expectedResult m).1 + 1 = (findPos expectedResult i).1 ∧
    (findPos expectedResult m).2 = (findPos expectedResult i).2 ∧
    (findPos b m).1 + 1 = (findPos b i).1 ∧ (findPos b m).2 = (findPos b i).2))

/-- Literal reading of the claimed override for tile `i`: some neighbor value
`i+1`, `i-1`, `i+3` or `i-3` matches the goal adjacency. -/
def specOverride (b : Board) (i : ℕ) : Prop :=
  specNeighborMatch b i (i + 1) ∨ specNeighborMatch b i (i - 1) ∨
  specNeighborMatch b i (i + 3) ∨ specNeighborMatch b i (i - 3)

instance (b : Board) (i m : ℕ) : Decidable (specNeighborMatch b i m) := by
  unfold specNeighborMatch
  infer_instance

instance (b : Board) (i : ℕ) : Decidable (specOverride b i) := by
  unfold specOverride
  infer_instance

/-- The per-tile contribution the claim describes, literally: the tile's
Manhattan distance, replaced by the constant `4` under the claimed
neighbor-adjacency match. -/
def specEnhContrib (b : Board) (i : ℕ) : ℤ :=
  if specOverride b i then 4 else manhContrib b i

/-- The claimed total for the enhanced-Manhattan evaluator. -/
def specEnhSum (b : Board) : ℤ := ((List.range 9).map (specEnhContrib b)).sum

/-- Contribution of tile value `i` in `Puzzle.euclidianHeuristic`:
`sqrt(Δrow² + Δcol²)`, idealised over ℝ. -/
noncomputable def euclContrib (b : Board) (i : ℕ) : ℝ :=
  Real.sqrt ((((findPos b i).1 : ℝ) - ((findPos expectedResult i).1 : ℝ)) ^ 2 +
             (((findPos b i).2 : ℝ) - ((findPos expectedResult i).2 : ℝ)) ^ 2)

/-- Total added to the heuristic by `Puzzle.euclidianHeuristic`. -/
noncomputable def euclSum (b : Board) : ℝ := ((List.range 9).map (euclContrib b)).sum

/-- Mutate a node the way the heuristic methods do: `heuristic += total`,
then `g = cost + heuristic`. -/
def scoreWith (nd : Node) (total : ℝ) : Node :=
  .mk nd.data nd.parent nd.cost (nd.heuristic + total) (nd.cost + (nd.heuristic + total))

/-- `Puzzle.simpleHeuristic` applied to a child node. -/
def simpleHeuristic (childNode : Node) : Node :=
  scoreWith childNode (simpleSum childNode.data : ℝ)

/-- `Puzzle.manhattanHeuristic` applied to a child node. -/
def manhattanHeuristic (childNode : Node) : Node :=
  scoreWith childNode (manhSum childNode.data : ℝ)

/-- `Puzzle.manhattanEnhancedHeuristic` applied to a child node. -/
def manhattanEnhancedHeuristic (childNode : Node) : Node :=
  scoreWith childNode (enhSum childNode.data : ℝ)

/-- `Puzzle.euclidianHeuristic` applied to a child node. -/
noncomputable def euclidianHeuristic (childNode : Node) : Node :=
  scoreWith childNode (euclSum childNode.data)

/-- Engine state: `self.open` and `self.visited` of a `Puzzle` object. -/
structure SState where
  openList : List Node
  visited : List Node

/-- The comparison used by `self.open.sort(key=lambda n: n.g)`. -/
def scoreLe (a b : Node) : Prop := a.g ≤ b.g

noncomputable instance : DecidableRel scoreLe := fun a b => by
  unfold scoreLe; infer_instance

/-- Re-establish the open list's order, as `self.open.sort(key=lambda n: n.g)`
does.  Python's Timsort is a stable comparison sort, and so is
`List.insertionSort`; a stable sort of a given list under a given key is
unique, so the two produce the same list. -/
noncomputable def sortOpen (l : List Node) : List Node :=
  List.insertionSort scoreLe l

/-- `child.g = child.cost`: the `"UC"` branch of the `match` in `Puzzle.solve`
(no heuristic; only `g` is reassigned). -/
def setGCost (nd : Node) : Node :=
  .mk nd.data nd.parent nd.cost nd.heuristic nd.cost

/-- The `match(method)` statement of `Puzzle.solve`, applied to an admitted
child: a recognized token scores the child, the default case prints a message
and returns `None`, modelled as `none`. -/
noncomputable def applyMethodMatch (method : String) (child : Node) : Option Node :=
  match method with
  | "UC" => some (setGCost child)
  | "A*" => some (simpleHeuristic child)
  | "A* M" => some (manhattanHeuristic child)
  | "A* EM" => some (manhattanEnhancedHeuristic child)
  | "A* E" => some (euclidianHeuristic child)
  | _ => none

/-- Outcome of the `for child in currentNode.generateChildren()` loop:
either all children were processed, or the unknown-method branch executed
`return None` (with the offending child already appended, unscored, and the
open list left unsorted). -/
inductive AdmitOut where
  | aborted (s : SState)
  | admitted (s : SState)

/-- The child-admission loop of `Puzzle.solve`: a child whose board already
appears (by value) among `open` or `visited` boards is skipped; otherwise it
is appended, scored by the selected method, and the open list is re-sorted.
Python appends the child object and then mutates it in place before sorting,
so the net effect is sorting `open + [scored child]`. -/
noncomputable def admitChildren (method : String) : List Node → SState → AdmitOut
  | [], s => .admitted s
  | child :: rest, s =>
    if child.data ∈ s.openList.map Node.data ∨ child.data ∈ s.visited.map Node.data then
      admitChildren method rest s
    else
      match applyMethodMatch method child with
      | some scored => admitChildren method rest ⟨sortOpen (s.openList ++ [scored]), s.visited⟩
      | none => .aborted ⟨s.openList ++ [child], s.visited⟩

/-- Outcome of one iteration of the `for i in range(maxIterations)` loop.
`stuck` models a Python crash: `self.open.pop(0)` on an empty list raises
`IndexError`, and a board with no blank makes `generateChildren` raise a
`TypeError` (see `findPosition`). -/
inductive StepOut where
  | done (res : Option Node) (s : SState)
  | next (s : SState)
  | stuck

/-- One iteration of the expansion loop: pop the front of the open list, move
it into `visited`, return it if it is the goal, otherwise admit its
children. -/
noncomputable def solveStep (method : String) (s : SState) : StepOut :=
  match s.openList with
  | [] => .stuck
  | currentNode :: restOpen =>
    let s1 : SState := ⟨restOpen, s.visited ++ [currentNode]⟩
    if currentNode.data = expectedResult then
      .done (some currentNode) s1
    else
      match generateChildren currentNode with
      | none => .stuck
      | some children =>
        match admitChildren method children s1 with
        | .aborted s2 => .done none s2
        | .admitted s2 => .next s2

/-- Result of a whole `Puzzle.solve` call: the returned node, the returned
`None`, or a crash.  The final engine state is kept alongside the value
because it stays on the `Puzzle` object (`self.open` / `self.visited`). -/
inductive SolveOut where
  | found (nd : Node) (s : SState)
  | noResult (s : SState)
  | stuck

/-- The `for i in range(maxIterations)` loop; falling off its end returns
`None`. -/
noncomputable def solveLoop (method : String) : ℕ → SState → SolveOut
  | 0, s => .noResult s
  | fuel + 1, s =>
    match solveStep method s with
    | .stuck => .stuck
    | .done (some nd) s2 => .found nd s2
    | .done none s2 => .noResult s2
    | .next s2 => solveLoop method fuel s2

/-- State of a fresh `Puzzle(data)` after the initial
`self.open.append(self.initialNode)` of `solve`. -/
def initialState (data : Board) : SState := ⟨[rootNode data], []⟩

/-- `Puzzle.solve(method, maxIterations)` on a fresh `Puzzle(data)`: append
the root to the open list, return it at once if it is already the goal,
otherwise run the bounded loop. -/
noncomputable def solve (method : String) (maxIterations : ℕ) (data : Board) : SolveOut :=
  if data = expectedResult then .found (rootNode data) (initialState data)
  else solveLoop method maxIterations (initialState data)

/-- The value the caller receives from `solve`: `some (some nd)` for a solved
node, `some none` for the returned `None`, `none` for a crash (the caller
receives nothing — the exception propagates). -/
def returnValue : SolveOut → Option (Option Node)
  | .found nd _ => some (some nd)
  | .noResult _ => some none
  | .stuck => none

/-- The final engine state, when the call returns at all. -/
def finalState : SolveOut → Option SState
  | .found _ s => some s
  | .noResult s => some s
  | .stuck => none

/-- A non-goal test board (the `testData` of the source file). -/
def testData : Board := [[5, 8, 1], [2, 3, 7], [4, 6, 0]]

/-- A degenerate board with no blank-distinct tiles: every generated child
equals its parent, so the open list drains. -/
def allZero : Board := [[0, 0, 0], [0, 0, 0], [0, 0, 0]]

/-- A board with no blank tile at all: `findPosition(0)` returns `None` and
every caller that unpacks the result crashes. -/
def noBlank : Board := [[1, 1, 1], [1, 1, 1], [1, 1, 1]]

/-- A board with no tile `8`: `findPosition(8)` returns `None`, which the
misplaced-tile evaluator silently tolerates (`None != tuple` is just `True`,
so the absent tile counts as misplaced and evaluation continues). -/
def noEight : Board := [[1, 2, 3], [4, 5, 6], [7, 0, 0]]

/-- Duplicate-suppression invariant of the engine: each board value appears at
most once across the open and visited lists combined. -/
def engineInv (s : SState) : Prop := ((s.openList ++ s.visited).map Node.data).Nodup

instance (s : SState) : Decidable (engineInv s) := by
  unfold engineInv; infer_instance

/-- Modelled from the claim: the orthogonal neighbors of the blank cell that
lie inside the 3×3 grid, in the order up, left, down, right. -/
def specMoves (p : ℕ × ℕ) : List (ℕ × ℕ) :=
  (if 0 < p.1 then [(p.1 - 1, p.2)] else []) ++
  (if 0 < p.2 then [(p.1, p.2 - 1)] else []) ++
  (if p.1 + 1 < 3 then [(p.1 + 1, p.2)] else []) ++
  (if p.2 + 1 < 3 then [(p.1, p.2 + 1)] else [])

/-! Ghost-instrumented engine for the frontier-ordering claim: each node in
the open list carries the sequence number of its insertion.  The tag is pure
bookkeeping — `untagS` below erases it and the instrumented step provably
projects onto `solveStep`. -/

/-- A node together with its insertion sequence number. -/
abbrev TNode := Node × ℕ

/-- The sort comparison, lifted to tagged nodes (still on `g` alone, exactly
as `key=lambda n: n.g` sorts). -/
def tagLe (a b : TNode) : Prop := a.1.g ≤ b.1.g

noncomputable instance : DecidableRel tagLe := fun a b => by
  unfold tagLe; infer_instance

/-- The stable sort of the tagged open list. -/
noncomputable def sortOpenT (l : List TNode) : List TNode :=
  List.insertionSort tagLe l

/-- Instrumented engine state: tagged open and visited lists plus the next
insertion sequence number. -/
structure TState where
  openList : List TNode
  visited : List TNode
  counter : ℕ

inductive TAdmitOut where
  | aborted (s : TState)
  | admitted (s : TState)

/-- Instrumented child-admission loop: identical to `admitChildren` except
that every appended node receives the next sequence number. -/
noncomputable def admitChildrenT (method : String) : List Node → TState → TAdmitOut
  | [], s => .admitted s
  | child :: rest, s =>
    if child.data ∈ s.openList.map (fun t => t.1.data) ∨
       child.data ∈ s.visited.map (fun t => t.1.data) then
      admitChildrenT method rest s
    else
      match applyMethodMatch method child with
      | some scored =>
        admitChildrenT method rest
          ⟨sortOpenT (s.openList ++ [(scored, s.counter)]), s.visited, s.counter + 1⟩
      | none => .aborted ⟨s.openList ++ [(child, s.counter)], s.visited, s.counter + 1⟩

inductive TStepOut where
  | done (res : Option Node) (s : TState)
  | next (s : TState)
  | stuck

/-- Instrumented expansion-loop iteration. -/
noncomputable def solveStepT (method : String) (s : TState) : TStepOut :=
  match s.openList with
  | [] => .stuck
  | currentNode :: restOpen =>
    let s1 : TState := ⟨restOpen, s.visited ++ [currentNode], s.counter⟩
    if currentNode.1.data = expectedResult then
      .done (some currentNode.1) s1
    else
      match generateChildren currentNode.1 with
      | none => .stuck
      | some children =>
        match admitChildrenT method children s1 with
        | .aborted s2 => .done none s2
        | .admitted s2 => .next s2

/-- Instrumented initial state: the root carries sequence number `0`. -/
def initialStateT (data : Board) : TState := ⟨[(rootNode data, 0)], [], 1⟩

/-- Strict frontier order: ascending score, ties broken by ascending
insertion sequence number. -/
def lexLt (a b : TNode) : Prop := a.1.g < b.1.g ∨ (a.1.g = b.1.g ∧ a.2 < b.2)

/-- Frontier invariant: the open list is sorted by score with ties in
insertion order, and every tag is below the running counter. -/
def frontInv (s : TState) : Prop :=
  s.openList.Pairwise lexLt ∧ ∀ x ∈ s.openList, x.2 < s.counter

/-- Erase the ghost tags. -/
def untagS (ts : TState) : SState := ⟨ts.openList.map Prod.fst, ts.visited.map Prod.fst⟩

def untagAdmit : TAdmitOut → AdmitOut
  | .aborted s => .aborted (untagS s)
  | .admitted s => .admitted (untagS s)

def untagStep : TStepOut → StepOut
  | .done r s => .done r (untagS s)
  | .next s => .next (untagS s)
  | .stuck => .stuck

/-- Stable insertion into a score-sorted list: the new element goes after
every element of score ≤ its own and before the first strictly greater one. -/
noncomputable def insertStable (t : TNode) : List TNode → List TNode
  | [] => [t]
  | a :: l => if a.1.g ≤ t.1.g then a :: insertStable t l else t :: a :: l

/-! Generic facts about the position scan. -/

theorem copyNode_eq (b : Board) : copyNode b = b := by
  simp [copyNode]

theorem findInRow_eq_none {row : List ℕ} {v : ℕ} :
    findInRow row v = none ↔ v ∉ row := by
  induction row with
  | nil => simp [findInRow]
  | cons x xs ih =>
    by_cases hx : x = v
    · simp [findInRow, hx]
    · simp [findInRow, hx, ih, Ne.symm hx]

theorem findInRow_some_spec {row : List ℕ} {v c : ℕ} (h : findInRow row v = some c) :
    c < row.length ∧ row.getD c 99 = v := by
  induction row generalizing c with
  | nil => simp [findInRow] at h
  | cons x xs ih =>
    by_cases hx : x = v
    · simp [findInRow, hx] at h
      subst h
      simp [hx]
    · simp [findInRow, hx] at h
      obtain ⟨c', hc', rfl⟩ := h
      obtain ⟨h1, h2⟩ := ih hc'
      refine ⟨?_, by simpa using h2⟩
      simp only [List.length_cons]
      omega

theorem findInRow_mem {row : List ℕ} {v : ℕ} (h : v ∈ row) :
    ∃ c, findInRow row v = some c := by
  rcases hN : findInRow row v with - | c
  · exact absurd h (findInRow_eq_none.mp hN)
  · exact ⟨c, rfl⟩

theorem findPositionFrom_spec {rows : List (List ℕ)} {v : ℕ} :
    ∀ (r0 : ℕ) {r c : ℕ}, findPositionFrom rows v r0 = some (r, c) →
      r0 ≤ r ∧ r - r0 < rows.length ∧ findInRow (rows.getD (r - r0) []) v = some c := by
  induction rows with
  | nil => intro r0 r c h; simp [findPositionFrom] at h
  | cons row rest ih =>
    intro r0 r c h
    unfold findPositionFrom at h
    rcases hR : findInRow row v with - | c'
    · rw [hR] at h
      obtain ⟨h1, h2, h3⟩ := ih (r0 + 1) h
      refine ⟨by omega, by simp; omega, ?_⟩
      have hrr : r - r0 = (r - (r0 + 1)) + 1 := by omega
      rw [hrr]
      simpa using h3
    · rw [hR] at h
      simp at h
      obtain ⟨rfl, rfl⟩ := h
      simpa using hR

theorem findPositionFrom_mem {rows : List (List ℕ)} {v : ℕ} :
    ∀ (r0 : ℕ), (∃ row ∈ rows, v ∈ row) → ∃ r c, findPositionFrom rows v r0 = some (r, c) := by
  induction rows with
  | nil => simp
  | cons row rest ih =>
    intro r0 h
    unfold findPositionFrom
    rcases hR : findInRow row v with - | c'
    · have hnot : v ∉ row := findInRow_eq_none.mp hR
      have : ∃ row ∈ rest, v ∈ row := by
        obtain ⟨rw, hrw, hv⟩ := h
        rcases List.mem_cons.mp hrw with rfl | hmem
        · exact absurd hv hnot
        · exact ⟨rw, hmem, hv⟩
      exact ih (r0 + 1) this
    · exact ⟨r0, c', rfl⟩

theorem findPositionFrom_none {rows : List (List ℕ)} {v : ℕ} {r0 : ℕ}
    (h : ∀ row ∈ rows, v ∉ row) : findPositionFrom rows v r0 = none := by
  induction rows generalizing r0 with
  | nil => rfl
  | cons row rest ih =>
    unfold findPositionFrom
    rcases hR : findInRow row v with - | c'
    · exact ih fun rw hrw => h rw (List.mem_cons_of_mem _ hrw)
    · have hv : v ∈ row := by
        by_contra hnot
        rw [findInRow_eq_none.mpr hnot] at hR
        exact Option.noConfusion hR
      exact absurd hv (h row (List.mem_cons_self _ _))

theorem findPosition_eq_none {b : Board} {v : ℕ} :
    findPosition b v = none ↔ v ∉ b.flatten := by
  constructor
  · intro h hv
    obtain ⟨row, hrow, hvr⟩ := List.mem_flatten.mp hv
    obtain ⟨r, c, hrc⟩ := findPositionFrom_mem 0 ⟨row, hrow, hvr⟩
    rw [findPosition, hrc] at h
    exact Option.noConfusion h
  · intro hv
    refine findPositionFrom_none fun row hrow hvr => hv (List.mem_flatten.mpr ⟨row, hrow, hvr⟩)

theorem findPosition_some_spec {b : Board} {v r c : ℕ} (h : findPosition b v = some (r, c)) :
    r < b.length ∧ c < (b.getD r []).length ∧ cellAt b r c = v := by
  obtain ⟨h1, h2, h3⟩ := findPositionFrom_spec 0 h
  simp only [Nat.sub_zero] at h2 h3
  obtain ⟨hc, hcell⟩ := findInRow_some_spec h3
  exact ⟨h2, hc, hcell⟩

theorem findPosition_mem {b : Board} {v : ℕ} (h : v ∈ b.flatten) :
    ∃ r c, findPosition b v = some (r, c) := by
  obtain ⟨row, hrow, hvr⟩ := List.mem_flatten.mp h
  exact findPositionFrom_mem 0 ⟨row, hrow, hvr⟩

/-! Facts about valid boards. -/

theorem validBoard_destruct {b : Board} (hb : validBoard b) :
    ∃ x0 x1 x2 x3 x4 x5 x6 x7 x8 : ℕ,
      b = [[x0, x1, x2], [x3, x4, x5], [x6, x7, x8]] := by
  obtain ⟨hshape, -⟩ := hb
  have hb3 : b.length = 3 := by
    have := congrArg List.length hshape
    simpa using this
  obtain ⟨r0, r1, r2, rfl⟩ := List.length_eq_three.mp hb3
  have h0 : r0.length = 3 := by
    have := congrArg (fun l => l.getD 0 0) hshape
    simpa using this
  have h1 : r1.length = 3 := by
    have := congrArg (fun l => l.getD 1 0) hshape
    simpa using this
  have h2 : r2.length = 3 := by
    have := congrArg (fun l => l.getD 2 0) hshape
    simpa using this
  obtain ⟨a0, a1, a2, rfl⟩ := List.length_eq_three.mp h0
  obtain ⟨b0, b1, b2, rfl⟩ := List.length_eq_three.mp h1
  obtain ⟨c0, c1, c2, rfl⟩ := List.length_eq_three.mp h2
  exact ⟨a0, a1, a2, b0, b1, b2, c0, c1, c2, rfl⟩

theorem validBoard_mem {b : Board} (hb : validBoard b) {v : ℕ} (hv : v < 9) :
    v ∈ b.flatten := by
  have h := hb.2 v hv
  exact List.count_pos_iff.mp (by omega)

theorem findPosition_valid {b : Board} (hb : validBoard b) {v : ℕ} (hv : v < 9) :
    ∃ r c, findPosition b v = some (r, c) ∧ r < 3 ∧ c < 3 ∧ cellAt b r c = v := by
  obtain ⟨r, c, hrc⟩ := findPosition_mem (validBoard_mem hb hv)
  obtain ⟨h1, h2, h3⟩ := findPosition_some_spec hrc
  obtain ⟨x0, x1, x2, x3, x4, x5, x6, x7, x8, rfl⟩ := validBoard_destruct hb
  refine ⟨r, c, hrc, ?_, ?_, h3⟩
  · simpa using h1
  · simp at h1
    interval_cases r <;> simpa using h2

theorem findPos_bounds {b : Board} (hb : validBoard b) {v : ℕ} (hv : v < 9) :
    (findPos b v).1 < 3 ∧ (findPos b v).2 < 3 := by
  obtain ⟨r, c, hrc, hr, hc, -⟩ := findPosition_valid hb hv
  rw [findPos, hrc]
  exact ⟨hr, hc⟩

theorem findPos_cell {b : Board} (hb : validBoard b) {v : ℕ} (hv : v < 9) :
    cellAt b (findPos b v).1 (findPos b v).2 = v := by
  obtain ⟨r, c, hrc, -, -, hcell⟩ := findPosition_valid hb hv
  rw [findPos, hrc]
  exact hcell

/-! Facts about goal-board lookups, used to decode the override conditions of
the enhanced-Manhattan evaluator. -/

theorem goalPos_bounds {v : ℕ} (hv : v < 9) :
    (findPos expectedResult v).1 < 3 ∧ (findPos expectedResult v).2 < 3 := by
  interval_cases v <;> decide

theorem goal_cellAt_eq {v : ℕ} (hv : v < 9) {r c : ℕ} (hr : r < 3) (hc : c < 3) :
    cellAt expectedResult r c = v ↔ findPos expectedResult v = (r, c) := by
  interval_cases r <;> interval_cases c <;> interval_cases v <;> decide

theorem goal_cellAt_ne {v : ℕ} (h9 : 9 ≤ v) (h99 : v ≠ 99) (r c : ℕ) :
    cellAt expectedResult r c ≠ v := by
  have h : cellAt expectedResult r c < 9 ∨ cellAt expectedResult r c = 99 := by
    rcases r with - | - | - | r
    · rcases c with - | - | - | c <;> simp [cellAt, expectedResult]
    · rcases c with - | - | - | c <;> simp [cellAt, expectedResult]
    · rcases c with - | - | - | c <;> simp [cellAt, expectedResult]
    · simp [cellAt, expectedResult]
  omega

theorem horizPair_iff {u v : ℕ} (hu : u < 9) (hv : v < 9) {p q : ℕ × ℕ}
    (hp1 : p.1 < 3) (hp2 : p.2 < 3) (hq1 : q.1 < 3) (hq2 : q.2 < 3) :
    (0 < p.2 ∧ q.2 < 2 ∧ cellAt expectedResult p.1 (p.2 - 1) = u ∧
      cellAt expectedResult q.1 (q.2 + 1) = v) ↔
    ((p.1 = (findPos expectedResult u).1 ∧ p.2 = (findPos expectedResult u).2 + 1) ∧
     (q.1 = (findPos expectedResult v).1 ∧ q.2 + 1 = (findPos expectedResult v).2)) := by
  obtain ⟨hgu1, hgu2⟩ := goalPos_bounds hu
  obtain ⟨hgv1, hgv2⟩ := goalPos_bounds hv
  constructor
  · rintro ⟨h0, h2, hcu, hcv⟩
    have hu' := (goal_cellAt_eq hu hp1 (by omega)).mp hcu
    have hv' := (goal_cellAt_eq hv hq1 (by omega)).mp hcv
    have eu1 := congrArg Prod.fst hu'
    have eu2 := congrArg Prod.snd hu'
    have ev1 := congrArg Prod.fst hv'
    have ev2 := congrArg Prod.snd hv'
    simp only at eu1 eu2 ev1 ev2
    refine ⟨⟨?_, ?_⟩, ?_, ?_⟩ <;> omega
  · rintro ⟨⟨ha, hb⟩, hc, hd⟩
    refine ⟨by omega, by omega, ?_, ?_⟩
    · refine (goal_cellAt_eq hu hp1 (by omega)).mpr ?_
      have : p.2 - 1 = (findPos expectedResult u).2 := by omega
      rw [Prod.ext_iff]
      exact ⟨ha.symm, this.symm⟩
    · refine (goal_cellAt_eq hv hq1 (by omega)).mpr ?_
      rw [Prod.ext_iff]
      exact ⟨hc.symm, hd.symm⟩

theorem vertPair_iff {u v : ℕ} (hu : u < 9) (hv : v < 9) {p q : ℕ × ℕ}
    (hp1 : p.1 < 3) (hp2 : p.2 < 3) (hq1 : q.1 < 3) (hq2 : q.2 < 3) :
    (0 < p.1 ∧ q.1 < 2 ∧ cellAt expectedResult (p.1 - 1) p.2 = u ∧
      cellAt expectedResult (q.1 + 1) q.2 = v) ↔
    ((p.1 = (findPos expectedResult u).1 + 1 ∧ p.2 = (findPos expectedResult u).2) ∧
     (q.1 + 1 = (findPos expectedResult v).1 ∧ q.2 = (findPos expectedResult v).2)) := by
  obtain ⟨hgu1, hgu2⟩ := goalPos_bounds hu
  obtain ⟨hgv1, hgv2⟩ := goalPos_bounds hv
  constructor
  · rintro ⟨h0, h2, hcu, hcv⟩
    have hu' := (goal_cellAt_eq hu (by omega) hp2).mp hcu
    have hv' := (goal_cellAt_eq hv (by omega) hq2).mp hcv
    have eu1 := congrArg Prod.fst hu'
    have eu2 := congrArg Prod.snd hu'
    have ev1 := congrArg Prod.fst hv'
    have ev2 := congrArg Prod.snd hv'
    simp only at eu1 eu2 ev1 ev2
    refine ⟨⟨?_, ?_⟩, ?_, ?_⟩ <;> omega
  · rintro ⟨⟨ha, hb⟩, hc, hd⟩
    refine ⟨by omega, by omega, ?_, ?_⟩
    · refine (goal_cellAt_eq hu (by omega) hp2).mpr ?_
      have : p.1 - 1 = (findPos expectedResult u).1 := by omega
      rw [Prod.ext_iff]
      exact ⟨this.symm, hb.symm⟩
    · refine (goal_cellAt_eq hv (by omega) hq2).mpr ?_
      rw [Prod.ext_iff]
      exact ⟨hc.symm, hd.symm⟩

theorem vertCell_row2_false {u : ℕ} (hu : u < 9) (hrow : (findPos expectedResult u).1 = 2)
    {p : ℕ × ℕ} (hp1 : p.1 < 3) (hp2 : p.2 < 3) :
    ¬(0 < p.1 ∧ cellAt expectedResult (p.1 - 1) p.2 = u) := by
  rintro ⟨h0, hc⟩
  have h := (goal_cellAt_eq hu (by omega) hp2).mp hc
  have e1 := congrArg Prod.fst h
  simp only at e1
  omega

/-- The `i3 = i - 3` branch of the enhanced evaluator can never fire when the
value it compares against sits in the bottom goal row: the stale `position2`
would have to sit in row 3. -/
theorem vertTopRow_false {u : ℕ} (hu : u < 9) (hrow : (findPos expectedResult u).1 = 2)
    {p : ℕ × ℕ} (hp1 : p.1 < 3) (hp2 : p.2 < 3) {q rest : Prop} :
    (0 < p.1 ∧ q ∧ cellAt expectedResult (p.1 - 1) p.2 = u ∧ rest) ↔ False := by
  simp only [iff_false]
  rintro ⟨h0, -, hc, -⟩
  exact vertCell_row2_false hu hrow hp1 hp2 ⟨h0, hc⟩

/-- A goal-board lookup can never produce a value `≥ 9` (other than the
out-of-bounds sentinel), so the branches comparing against `i + 1 = 9` or
`i + 3 ∈ {9, 10, 11}` are dead. -/
theorem cellNine_false {u : ℕ} (h9 : 9 ≤ u) (h99 : u ≠ 99) {r c : ℕ} {q0 q rest : Prop} :
    (q0 ∧ q ∧ cellAt expectedResult r c = u ∧ rest) ↔ False := by
  simp only [iff_false]
  rintro ⟨-, -, hc, -⟩
  exact goal_cellAt_ne h9 h99 r c hc

theorem iteTwo_or {a b : Prop} [Decidable a] [Decidable b] {x y : ℤ} :
    (if b then x else if a then x else y) = if a ∨ b then x else y := by
  by_cases ha : a <;> by_cases hb : b <;> simp [ha, hb]

theorem iteThree_or {a b c : Prop} [Decidable a] [Decidable b] [Decidable c] {x y : ℤ} :
    (if c then x else if b then x else if a then x else y) = if a ∨ b ∨ c then x else y := by
  by_cases ha : a <;> by_cases hb : b <;> by_cases hc : c <;> simp [ha, hb, hc]

/-- Decoding of the enhanced-Manhattan override, tile by tile: the
transcribed contribution equals the tile's Manhattan distance, replaced by
`4` exactly under the declarative `enhOverride` condition. -/
theorem enhContrib_eq {b : Board} (hb : validBoard b) {i : ℕ} (hi : i < 9) :
    enhContrib b i = if enhOverride b i then 4 else manhContrib b i := by
  have B : ∀ v : ℕ, v < 9 → (findPos b v).1 < 3 ∧ (findPos b v).2 < 3 := fun v hv =>
    findPos_bounds hb hv
  interval_cases i
  · -- i = 0: live branches are `i+1 = 1` and `i+3 = 3`
    have hiff1 := horizPair_iff (u := 0) (v := 1) (by norm_num) (by norm_num)
      (B 0 (by norm_num)).1 (B 0 (by norm_num)).2 (B 1 (by norm_num)).1 (B 1 (by norm_num)).2
    have hiff3 := vertPair_iff (u := 0) (v := 3) (by norm_num) (by norm_num)
      (B 0 (by norm_num)).1 (B 0 (by norm_num)).2 (B 3 (by norm_num)).1 (B 3 (by norm_num)).2
    simp only [enhContrib, enhOverride, displacedRight, displacedLeft, displacedDown,
      displacedUp, manhContrib]
    norm_num
    simp only [hiff1, hiff3]
    exact iteTwo_or
  · -- i = 1: live branches are `i+1 = 2` and `i+3 = 4`
    have hiff1 := horizPair_iff (u := 1) (v := 2) (by norm_num) (by norm_num)
      (B 1 (by norm_num)).1 (B 1 (by norm_num)).2 (B 2 (by norm_num)).1 (B 2 (by norm_num)).2
    have hiff3 := vertPair_iff (u := 1) (v := 4) (by norm_num) (by norm_num)
      (B 1 (by norm_num)).1 (B 1 (by norm_num)).2 (B 4 (by norm_num)).1 (B 4 (by norm_num)).2
    simp only [enhContrib, enhOverride, displacedRight, displacedLeft, displacedDown,
      displacedUp, manhContrib]
    norm_num
    simp only [hiff1, hiff3]
    exact iteTwo_or
  · -- i = 2: live branches are `i+1 = 3`, the stale `i-1` branch, and `i+3 = 5`
    have hiff1 := horizPair_iff (u := 2) (v := 3) (by norm_num) (by norm_num)
      (B 2 (by norm_num)).1 (B 2 (by norm_num)).2 (B 3 (by norm_num)).1 (B 3 (by norm_num)).2
    have hiff2 := horizPair_iff (u := 3) (v := 1) (by norm_num) (by norm_num)
      (B 3 (by norm_num)).1 (B 3 (by norm_num)).2 (B 1 (by norm_num)).1 (B 1 (by norm_num)).2
    have hiff3 := vertPair_iff (u := 2) (v := 5) (by norm_num) (by norm_num)
      (B 2 (by norm_num)).1 (B 2 (by norm_num)).2 (B 5 (by norm_num)).1 (B 5 (by norm_num)).2
    simp only [enhContrib, enhOverride, displacedRight, displacedLeft, displacedDown,
      displacedUp, manhContrib]
    norm_num
    simp only [hiff1, hiff2, hiff3]
    exact iteThree_or
  · -- i = 3
    have hiff1 := horizPair_iff (u := 3) (v := 4) (by norm_num) (by norm_num)
      (B 3 (by norm_num)).1 (B 3 (by norm_num)).2 (B 4 (by norm_num)).1 (B 4 (by norm_num)).2
    have hiff2 := horizPair_iff (u := 4) (v := 2) (by norm_num) (by norm_num)
      (B 4 (by norm_num)).1 (B 4 (by norm_num)).2 (B 2 (by norm_num)).1 (B 2 (by norm_num)).2
    have hiff3 := vertPair_iff (u := 3) (v := 6) (by norm_num) (by norm_num)
      (B 3 (by norm_num)).1 (B 3 (by norm_num)).2 (B 6 (by norm_num)).1 (B 6 (by norm_num)).2
    simp only [enhContrib, enhOverride, displacedRight, displacedLeft, displacedDown,
      displacedUp, manhContrib]
    norm_num
    simp only [hiff1, hiff2, hiff3]
    exact iteThree_or
  · -- i = 4: the `i-3` branch is entered but dead (goal row of `7` is `2`)
    have hiff1 := horizPair_iff (u := 4) (v := 5) (by norm_num) (by norm_num)
      (B 4 (by norm_num)).1 (B 4 (by norm_num)).2 (B 5 (by norm_num)).1 (B 5 (by norm_num)).2
    have hiff2 := horizPair_iff (u := 5) (v := 3) (by norm_num) (by norm_num)
      (B 5 (by norm_num)).1 (B 5 (by norm_num)).2 (B 3 (by norm_num)).1 (B 3 (by norm_num)).2
    have hiff3 := vertPair_iff (u := 4) (v := 7) (by norm_num) (by norm_num)
      (B 4 (by norm_num)).1 (B 4 (by norm_num)).2 (B 7 (by norm_num)).1 (B 7 (by norm_num)).2
    simp only [enhContrib, enhOverride, displacedRight, displacedLeft, displacedDown,
      displacedUp, manhContrib]
    norm_num
    simp only [hiff1, hiff2, hiff3,
      vertTopRow_false (u := 7) (by norm_num) (by decide)
        (B 7 (by norm_num)).1 (B 7 (by norm_num)).2, if_false]
    exact iteThree_or
  · -- i = 5: the `i-3` branch is entered but dead (goal row of `8` is `2`)
    have hiff1 := horizPair_iff (u := 5) (v := 6) (by norm_num) (by norm_num)
      (B 5 (by norm_num)).1 (B 5 (by norm_num)).2 (B 6 (by norm_num)).1 (B 6 (by norm_num)).2
    have hiff2 := horizPair_iff (u := 6) (v := 4) (by norm_num) (by norm_num)
      (B 6 (by norm_num)).1 (B 6 (by norm_num)).2 (B 4 (by norm_num)).1 (B 4 (by norm_num)).2
    have hiff3 := vertPair_iff (u := 5) (v := 8) (by norm_num) (by norm_num)
      (B 5 (by norm_num)).1 (B 5 (by norm_num)).2 (B 8 (by norm_num)).1 (B 8 (by norm_num)).2
    simp only [enhContrib, enhOverride, displacedRight, displacedLeft, displacedDown,
      displacedUp, manhContrib]
    norm_num
    simp only [hiff1, hiff2, hiff3,
      vertTopRow_false (u := 8) (by norm_num) (by decide)
        (B 8 (by norm_num)).1 (B 8 (by norm_num)).2, if_false]
    exact iteThree_or
  · -- i = 6: vertical branches are skipped (`9`) or dead (`= 9` lookup)
    have hiff1 := horizPair_iff (u := 6) (v := 7) (by norm_num) (by norm_num)
      (B 6 (by norm_num)).1 (B 6 (by norm_num)).2 (B 7 (by norm_num)).1 (B 7 (by norm_num)).2
    have hiff2 := horizPair_iff (u := 7) (v := 5) (by norm_num) (by norm_num)
      (B 7 (by norm_num)).1 (B 7 (by norm_num)).2 (B 5 (by norm_num)).1 (B 5 (by norm_num)).2
    simp only [enhContrib, enhOverride, displacedRight, displacedLeft, displacedDown,
      displacedUp, manhContrib]
    norm_num
    simp only [hiff1, hiff2, cellNine_false (u := 9) (by norm_num) (by norm_num), if_false]
    exact iteTwo_or
  · -- i = 7
    have hiff1 := horizPair_iff (u := 7) (v := 8) (by norm_num) (by norm_num)
      (B 7 (by norm_num)).1 (B 7 (by norm_num)).2 (B 8 (by norm_num)).1 (B 8 (by norm_num)).2
    have hiff2 := horizPair_iff (u := 8) (v := 6) (by norm_num) (by norm_num)
      (B 8 (by norm_num)).1 (B 8 (by norm_num)).2 (B 6 (by norm_num)).1 (B 6 (by norm_num)).2
    simp only [enhContrib, enhOverride, displacedRight, displacedLeft, displacedDown,
      displacedUp, manhContrib]
    norm_num
    simp only [hiff1, hiff2, cellNine_false (u := 10) (by norm_num) (by norm_num), if_false]
    exact iteTwo_or
  · -- i = 8: every branch is skipped or dead, so the contribution is plain
    -- Manhattan distance
    simp only [enhContrib, enhOverride, displacedRight, displacedLeft, displacedDown,
      displacedUp, manhContrib]
    norm_num
    simp only [cellNine_false (u := 9) (by norm_num) (by norm_num),
      cellNine_false (u := 11) (by norm_num) (by norm_num), if_false]

/-- C2, counterexample: reading the claimed override condition literally (the
board's relative placement of `i` and a neighbor matches the goal's recorded
adjacency, oriented as in the goal), the goal board itself would score `32` —
every tile `1..8` sits exactly in the goal adjacency with some neighbor — but
the code's evaluator scores the goal board `0`.  The claimed condition is not
the condition the code tests. -/
theorem c2_counterexample :
    validBoard expectedResult ∧ specEnhSum expectedResult = 32 ∧
      enhSum expectedResult = 0 ∧ specEnhSum expectedResult ≠ enhSum expectedResult := by
  refine ⟨by decide, by decide, by decide, by decide⟩

/-- C2, amended: for every valid board the enhanced-Manhattan evaluator adds,
for each tile value `i` in `0..8`, the tile's Manhattan distance to its goal
position, except that the contribution is replaced by the constant `4` under
`enhOverride` — the displacement condition the code actually tests (tile and
neighbor each displaced one step from their goal cells, toward each other;
with the `i-1` branch comparing `i+1` against `i-1` through a stale variable,
and the `i-3` branch dead); the node's heuristic is increased by the sum of
these contributions and its score is cost plus heuristic. -/
theorem c2_amended_thm {b : Board} (hb : validBoard b) (nd : Node) (hd : nd.data = b) :
    enhSum b =
      ((List.range 9).map (fun i => if enhOverride b i then (4 : ℤ) else manhContrib b i)).sum ∧
    (manhattanEnhancedHeuristic nd).heuristic = nd.heuristic + (enhSum b : ℝ) ∧
    (manhattanEnhancedHeuristic nd).g = nd.cost + (nd.heuristic + (enhSum b : ℝ)) := by
  refine ⟨?_, ?_, ?_⟩
  · unfold enhSum
    congr 1
    refine List.map_congr_left fun i hi => ?_
    exact enhContrib_eq hb (List.mem_range.mp hi)
  · simp [manhattanEnhancedHeuristic, scoreWith, Node.heuristic, hd]
  · simp [manhattanEnhancedHeuristic, scoreWith, Node.g, hd]

/-- C2, witness: the amended theorem applied to the concrete `testData`
board. -/
theorem c2_witness :
    validBoard testData ∧
      enhSum testData =
        ((List.range 9).map
          (fun i => if enhOverride testData i then (4 : ℤ) else manhContrib testData i)).sum :=
  ⟨by decide, (c2_amended_thm (by decide) (rootNode testData) rfl).1⟩

/-- C4: each heuristic evaluator scores the goal board `0`, and every
evaluator's total is non-negative on every valid board. -/
theorem c4_thm :
    (simpleSum expectedResult = 0 ∧ manhSum expectedResult = 0 ∧
      enhSum expectedResult = 0 ∧ euclSum expectedResult = 0) ∧
    ∀ b : Board, validBoard b →
      0 ≤ simpleSum b ∧ 0 ≤ manhSum b ∧ 0 ≤ enhSum b ∧ 0 ≤ euclSum b := by
  constructor
  · refine ⟨by decide, by decide, by decide, ?_⟩
    unfold euclSum
    refine List.sum_eq_zero fun x hx => ?_
    obtain ⟨i, -, rfl⟩ := List.mem_map.mp hx
    simp [euclContrib, sub_self]
  · intro b hb
    refine ⟨?_, ?_, ?_, ?_⟩
    · refine List.sum_nonneg fun x hx => ?_
      obtain ⟨i, -, rfl⟩ := List.mem_map.mp hx
      unfold simpleContrib
      split <;> norm_num
    · refine List.sum_nonneg fun x hx => ?_
      obtain ⟨i, -, rfl⟩ := List.mem_map.mp hx
      unfold manhContrib
      positivity
    · refine List.sum_nonneg fun x hx => ?_
      obtain ⟨i, hi, rfl⟩ := List.mem_map.mp hx
      rw [enhContrib_eq hb (List.mem_range.mp hi)]
      split
      · norm_num
      · unfold manhContrib
        positivity
    · refine List.sum_nonneg fun x hx => ?_
      obtain ⟨i, -, rfl⟩ := List.mem_map.mp hx
      exact Real.sqrt_nonneg _

/-- C4, witness: non-negativity at the concrete `testData` board. -/
theorem c4_witness :
    validBoard testData ∧
      (0 ≤ simpleSum testData ∧ 0 ≤ manhSum testData ∧ 0 ≤ enhSum testData ∧
        0 ≤ euclSum testData) :=
  ⟨by decide, c4_thm.2 testData (by decide)⟩

theorem generateChildrenGo_eq {nd : Node} {blank : ℕ × ℕ}
    (h : findPosition nd.data 0 = some blank) :
    ∀ ms : List (ℕ × ℕ), generateChildrenGo nd ms = some (ms.map (childFromMove nd blank)) := by
  intro ms
  induction ms with
  | nil => rfl
  | cons m rest ih => simp [generateChildrenGo, h, ih]

theorem generateChildren_root {b : Board} (hb : validBoard b) :
    ∃ c cs, generateChildren (rootNode b) = some (c :: cs) ∧ c.data ≠ b := by
  obtain ⟨br, bc, hfp, hbr, hbc, hzero⟩ := findPosition_valid hb (by norm_num : (0:ℕ) < 9)
  have hcount := hb.2 0 (by norm_num)
  obtain ⟨x0, x1, x2, x3, x4, x5, x6, x7, x8, rfl⟩ := validBoard_destruct hb
  have hcount9 : List.count 0 [x0, x1, x2, x3, x4, x5, x6, x7, x8] = 1 := by
    simpa using hcount
  clear hcount
  interval_cases br <;> interval_cases bc
  · -- blank at (0, 0); the first move (1, 0) swaps the blank with entry `x3`
    have hz : x0 = 0 := by simpa [cellAt] using hzero
    refine ⟨childFromMove (rootNode [[x0, x1, x2], [x3, x4, x5], [x6, x7, x8]]) (0, 0) (1, 0),
      [childFromMove (rootNode [[x0, x1, x2], [x3, x4, x5], [x6, x7, x8]]) (0, 0) (0, 1)], ?_, ?_⟩
    · simp [generateChildren, findAvailableMoves, generateChildrenGo, hfp, rootNode,
        Node.make, Node.data]
    · have hcdata : (childFromMove (rootNode [[x0, x1, x2], [x3, x4, x5], [x6, x7, x8]]) (0, 0) (1, 0)).data =
          [[x3, x1, x2], [x0, x4, x5], [x6, x7, x8]] := by
        simp [childFromMove, copyNode, setCell, cellAt, Node.make, Node.data, rootNode]
      intro heq
      rw [hcdata] at heq
      have h' := congrArg (fun l => cellAt l 0 0) heq
      simp only [cellAt] at h'
      simp at h'
      have hx : x3 = 0 := by omega
      simp [List.count_cons, hz, hx] at hcount9 <;> omega
  · -- blank at (0, 1); the first move (0, 0) swaps the blank with entry `x0`
    have hz : x1 = 0 := by simpa [cellAt] using hzero
    refine ⟨childFromMove (rootNode [[x0, x1, x2], [x3, x4, x5], [x6, x7, x8]]) (0, 1) (0, 0),
      [childFromMove (rootNode [[x0, x1, x2], [x3, x4, x5], [x6, x7, x8]]) (0, 1) (1, 1),
        childFromMove (rootNode [[x0, x1, x2], [x3, x4, x5], [x6, x7, x8]]) (0, 1) (0, 2)], ?_, ?_⟩
    · simp [generateChildren, findAvailableMoves, generateChildrenGo, hfp, rootNode,
        Node.make, Node.data]
    · have hcdata : (childFromMove (rootNode [[x0, x1, x2], [x3, x4, x5], [x6, x7, x8]]) (0, 1) (0, 0)).data =
          [[x1, x0, x2], [x3, x4, x5], [x6, x7, x8]] := by
        simp [childFromMove, copyNode, setCell, cellAt, Node.make, Node.data, rootNode]
      intro heq
      rw [hcdata] at heq
      have h' := congrArg (fun l => cellAt l 0 1) heq
      simp only [cellAt] at h'
      simp at h'
      have hx : x0 = 0 := by omega
      simp [List.count_cons, hz, hx] at hcount9 <;> omega
  · -- blank at (0, 2); the first move (0, 1) swaps the blank with entry `x1`
    have hz : x2 = 0 := by simpa [cellAt] using hzero
    refine ⟨childFromMove (rootNode [[x0, x1, x2], [x3, x4, x5], [x6, x7, x8]]) (0, 2) (0, 1),
      [childFromMove (rootNode [[x0, x1, x2], [x3, x4, x5], [x6, x7, x8]]) (0, 2) (1, 2)], ?_, ?_⟩
    · simp [generateChildren, findAvailableMoves, generateChildrenGo, hfp, rootNode,
        Node.make, Node.data]
    · have hcdata : (childFromMove (rootNode [[x0, x1, x2], [x3, x4, x5], [x6, x7, x8]]) (0, 2) (0, 1)).data =
          [[x0, x2, x1], [x3, x4, x5], [x6, x7, x8]] := by
        simp [childFromMove, copyNode, setCell, cellAt, Node.make, Node.data, rootNode]
      intro heq
      rw [hcdata] at heq
      have h' := congrArg (fun l => cellAt l 0 2) heq
      simp only [cellAt] at h'
      simp at h'
      have hx : x1 = 0 := by omega
      simp [List.count_cons, hz, hx] at hcount9 <;> omega
  · -- blank at (1, 0); the first move (0, 0) swaps the blank with entry `x0`
    have hz : x3 = 0 := by simpa [cellAt] using hzero
    refine ⟨childFromMove (rootNode [[x0, x1, x2], [x3, x4, x5], [x6, x7, x8]]) (1, 0) (0, 0),
      [childFromMove (rootNode [[x0, x1, x2], [x3, x4, x5], [x6, x7, x8]]) (1, 0) (2, 0),
        childFromMove (rootNode [[x0, x1, x2], [x3, x4, x5], [x6, x7, x8]]) (1, 0) (1, 1)], ?_, ?_⟩
    · simp [generateChildren, findAvailableMoves, generateChildrenGo, hfp, rootNode,
        Node.make, Node.data]
    · have hcdata : (childFromMove (rootNode [[x0, x1, x2], [x3, x4, x5], [x6, x7, x8]]) (1, 0) (0, 0)).data =
          [[x3, x1, x2], [x0, x4, x5], [x6, x7, x8]] := by
        simp [childFromMove, copyNode, setCell, cellAt, Node.make, Node.data, rootNode]
      intro heq
      rw [hcdata] at heq
      have h' := congrArg (fun l => cellAt l 1 0) heq
      simp only [cellAt] at h'
      simp at h'
      have hx : x0 = 0 := by omega
      simp [List.count_cons, hz, hx] at hcount9 <;> omega
  · -- blank at (1, 1); the first move (0, 1) swaps the blank with entry `x1`
    have hz : x4 = 0 := by simpa [cellAt] using hzero
    refine ⟨childFromMove (rootNode [[x0, x1, x2], [x3, x4, x5], [x6, x7, x8]]) (1, 1) (0, 1),
      [childFromMove (rootNode [[x0, x1, x2], [x3, x4, x5], [x6, x7, x8]]) (1, 1) (1, 0),
        childFromMove (rootNode [[x0, x1, x2], [x3, x4, x5], [x6, x7, x8]]) (1, 1) (2, 1),
        childFromMove (rootNode [[x0, x1, x2], [x3, x4, x5], [x6, x7, x8]]) (1, 1) (1, 2)], ?_, ?_⟩
    · simp [generateChildren, findAvailableMoves, generateChildrenGo, hfp, rootNode,
        Node.make, Node.data]
    · have hcdata : (childFromMove (rootNode [[x0, x1, x2], [x3, x4, x5], [x6, x7, x8]]) (1, 1) (0, 1)).data =
          [[x0, x4, x2], [x3, x1, x5], [x6, x7, x8]] := by
        simp [childFromMove, copyNode, setCell, cellAt, Node.make, Node.data, rootNode]
      intro heq
      rw [hcdata] at heq
      have h' := congrArg (fun l => cellAt l 1 1) heq
      simp only [cellAt] at h'
      simp at h'
      have hx : x1 = 0 := by omega
      simp [List.count_cons, hz, hx] at hcount9 <;> omega
  · -- blank at (1, 2); the first move (0, 2) swaps the blank with entry `x2`
    have hz : x5 = 0 := by simpa [cellAt] using hzero
    refine ⟨childFromMove (rootNode [[x0, x1, x2], [x3, x4, x5], [x6, x7, x8]]) (1, 2) (0, 2),
      [childFromMove (rootNode [[x0, x1, x2], [x3, x4, x5], [x6, x7, x8]]) (1, 2) (1, 1),
        childFromMove (rootNode [[x0, x1, x2], [x3, x4, x5], [x6, x7, x8]]) (1, 2) (2, 2)], ?_, ?_⟩
    · simp [generateChildren, findAvailableMoves, generateChildrenGo, hfp, rootNode,
        Node.make, Node.data]
    · have hcdata : (childFromMove (rootNode [[x0, x1, x2], [x3, x4, x5], [x6, x7, x8]]) (1, 2) (0, 2)).data =
          [[x0, x1, x5], [x3, x4, x2], [x6, x7, x8]] := by
        simp [childFromMove, copyNode, setCell, cellAt, Node.make, Node.data, rootNode]
      intro heq
      rw [hcdata] at heq
      have h' := congrArg (fun l => cellAt l 1 2) heq
      simp only [cellAt] at h'
      simp at h'
      have hx : x2 = 0 := by omega
      simp [List.count_cons, hz, hx] at hcount9 <;> omega
  · -- blank at (2, 0); the first move (1, 0) swaps the blank with entry `x3`
    have hz : x6 = 0 := by simpa [cellAt] using hzero
    refine ⟨childFromMove (rootNode [[x0, x1, x2], [x3, x4, x5], [x6, x7, x8]]) (2, 0) (1, 0),
      [childFromMove (rootNode [[x0, x1, x2], [x3, x4, x5], [x6, x7, x8]]) (2, 0) (2, 1)], ?_, ?_⟩
    · simp [generateChildren, findAvailableMoves, generateChildrenGo, hfp, rootNode,
        Node.make, Node.data]
    · have hcdata : (childFromMove (rootNode [[x0, x1, x2], [x3, x4, x5], [x6, x7, x8]]) (2, 0) (1, 0)).data =
          [[x0, x1, x2], [x6, x4, x5], [x3, x7, x8]] := by
        simp [childFromMove, copyNode, setCell, cellAt, Node.make, Node.data, rootNode]
      intro heq
      rw [hcdata] at heq
      have h' := congrArg (fun l => cellAt l 2 0) heq
      simp only [cellAt] at h'
      simp at h'
      have hx : x3 = 0 := by omega
      simp [List.count_cons, hz, hx] at hcount9 <;> omega
  · -- blank at (2, 1); the first move (1, 1) swaps the blank with entry `x4`
    have hz : x7 = 0 := by simpa [cellAt] using hzero
    refine ⟨childFromMove (rootNode [[x0, x1, x2], [x3, x4, x5], [x6, x7, x8]]) (2, 1) (1, 1),
      [childFromMove (rootNode [[x0, x1, x2], [x3, x4, x5], [x6, x7, x8]]) (2, 1) (2, 0),
        childFromMove (rootNode [[x0, x1, x2], [x3, x4, x5], [x6, x7, x8]]) (2, 1) (2, 2)], ?_, ?_⟩
    · simp [generateChildren, findAvailableMoves, generateChildrenGo, hfp, rootNode,
        Node.make, Node.data]
    · have hcdata : (childFromMove (rootNode [[x0, x1, x2], [x3, x4, x5], [x6, x7, x8]]) (2, 1) (1, 1)).data =
          [[x0, x1, x2], [x3, x7, x5], [x6, x4, x8]] := by
        simp [childFromMove, copyNode, setCell, cellAt, Node.make, Node.data, rootNode]
      intro heq
      rw [hcdata] at heq
      have h' := congrArg (fun l => cellAt l 2 1) heq
      simp only [cellAt] at h'
      simp at h'
      have hx : x4 = 0 := by omega
      simp [List.count_cons, hz, hx] at hcount9 <;> omega
  · -- blank at (2, 2); the first move (1, 2) swaps the blank with entry `x5`
    have hz : x8 = 0 := by simpa [cellAt] using hzero
    refine ⟨childFromMove (rootNode [[x0, x1, x2], [x3, x4, x5], [x6, x7, x8]]) (2, 2) (1, 2),
      [childFromMove (rootNode [[x0, x1, x2], [x3, x4, x5], [x6, x7, x8]]) (2, 2) (2, 1)], ?_, ?_⟩
    · simp [generateChildren, findAvailableMoves, generateChildrenGo, hfp, rootNode,
        Node.make, Node.data]
    · have hcdata : (childFromMove (rootNode [[x0, x1, x2], [x3, x4, x5], [x6, x7, x8]]) (2, 2) (1, 2)).data =
          [[x0, x1, x2], [x3, x4, x8], [x6, x7, x5]] := by
        simp [childFromMove, copyNode, setCell, cellAt, Node.make, Node.data, rootNode]
      intro heq
      rw [hcdata] at heq
      have h' := congrArg (fun l => cellAt l 2 2) heq
      simp only [cellAt] at h'
      simp at h'
      have hx : x5 = 0 := by omega
      simp [List.count_cons, hz, hx] at hcount9 <;> omega

/-! Unfolding equations for the engine, and the unknown-method abort. -/

theorem applyMethodMatch_xyz (c : Node) : applyMethodMatch "XYZ" c = none := rfl

theorem solveStep_cons (m : String) (current : Node) (restOpen vis : List Node) :
    solveStep m ⟨current :: restOpen, vis⟩ =
      (if current.data = expectedResult then
        .done (some current) ⟨restOpen, vis ++ [current]⟩
      else
        match generateChildren current with
        | none => .stuck
        | some children =>
          match admitChildren m children ⟨restOpen, vis ++ [current]⟩ with
          | .aborted s2 => .done none s2
          | .admitted s2 => .next s2) := rfl

theorem admitChildren_cons (m : String) (child : Node) (rest : List Node) (s : SState) :
    admitChildren m (child :: rest) s =
      (if child.data ∈ s.openList.map Node.data ∨ child.data ∈ s.visited.map Node.data then
        admitChildren m rest s
      else
        match applyMethodMatch m child with
        | some scored => admitChildren m rest ⟨sortOpen (s.openList ++ [scored]), s.visited⟩
        | none => .aborted ⟨s.openList ++ [child], s.visited⟩) := rfl

theorem solveLoop_succ (m : String) (fuel : ℕ) (s : SState) :
    solveLoop m (fuel + 1) s =
      (match solveStep m s with
      | .stuck => .stuck
      | .done (some nd) s2 => .found nd s2
      | .done none s2 => .noResult s2
      | .next s2 => solveLoop m fuel s2) := rfl

/-- Running `solve` with the unrecognized token `"XYZ"` on a valid non-goal
board and a positive budget: the root is expanded, its first child is
admitted unscored, and the `match` default then returns `None`, leaving
`open = [first child]` and `visited = [root]` on the puzzle object. -/
theorem xyz_abort {b : Board} (hb : validBoard b) (hne : b ≠ expectedResult) :
    ∃ c cs, generateChildren (rootNode b) = some (c :: cs) ∧ c.data ≠ b ∧
      ∀ n : ℕ, 1 ≤ n → solve "XYZ" n b = .noResult ⟨[c], [rootNode b]⟩ := by
  obtain ⟨c, cs, hgen, hcne⟩ := generateChildren_root hb
  refine ⟨c, cs, hgen, hcne, ?_⟩
  intro n hn
  obtain ⟨k, rfl⟩ : ∃ k, n = k + 1 := ⟨n - 1, by omega⟩
  have hadmA : admitChildren "XYZ" (c :: cs) ⟨[], [rootNode b]⟩ =
      .aborted ⟨[c], [rootNode b]⟩ := by
    rw [admitChildren_cons, if_neg]
    · rfl
    · simp only [List.map, List.map_nil]
      simp [Node.data, rootNode, Node.make]
      exact hcne
  have hstep : solveStep "XYZ" ⟨[rootNode b], []⟩ = .done none ⟨[c], [rootNode b]⟩ := by
    rw [solveStep_cons, if_neg (show ¬((rootNode b).data = expectedResult) from hne), hgen]
    simp only [List.nil_append]
    rw [hadmA]
  unfold solve
  rw [if_neg hne]
  show solveLoop "XYZ" (k + 1) ⟨[rootNode b], []⟩ = _
  rw [solveLoop_succ, hstep]

/-- C1, amended: both failure modes of `solve` return the same value `None`
(modelled `some none`: the call returns, and the returned value is `None`).
An unrecognized method aborts with `None` on any valid non-goal board with a
positive budget, and an exhausted budget (here `maxIterations = 0` on a
non-goal board) also returns `None`; the two failures are not distinguishable
by the returned value, only by the printed message. -/
theorem c1_thm {b : Board} (hb : validBoard b) (hne : b ≠ expectedResult) :
    (∀ n : ℕ, 1 ≤ n → returnValue (solve "XYZ" n b) = some none) ∧
    ∀ m : String, returnValue (solve m 0 b) = some none := by
  constructor
  · intro n hn
    obtain ⟨c, cs, -, -, hrun⟩ := xyz_abort hb hne
    rw [hrun n hn]
    rfl
  · intro m
    unfold solve
    rw [if_neg hne]
    rfl

/-- C1, counterexample to the claim as stated: the failure value for the
unknown method `"XYZ"` with a positive budget equals the failure value for an
exhausted budget — both are Python `None` — so the two failures are not
distinguishable results. -/
theorem c1_counterexample :
    returnValue (solve "XYZ" 5 testData) = returnValue (solve "UC" 0 testData) ∧
    returnValue (solve "XYZ" 5 testData) = some none := ⟨rfl, rfl⟩

/-- C1, witness: the amended theorem at the concrete `testData` board. -/
theorem c1_witness :
    validBoard testData ∧ testData ≠ expectedResult ∧
      returnValue (solve "XYZ" 7 testData) = some none ∧
      returnValue (solve "A* M" 0 testData) = some none :=
  ⟨by decide, by decide, (c1_thm (by decide) (by decide)).1 7 (by norm_num),
    (c1_thm (by decide) (by decide)).2 "A* M"⟩

/-- C3, amended: with an unrecognized method, a positive budget and a valid
non-goal board, the abort happens inside the first child admission — one node
(the root) is expanded into `visited` and its first generated child is
appended to `open` before `solve` returns `None`; the built-up `open` and
`visited` lists are retained on the puzzle object, not discarded.  Only the
returned value carries no partial progress. -/
theorem c3_thm {b : Board} (hb : validBoard b) (hne : b ≠ expectedResult) {n : ℕ}
    (hn : 1 ≤ n) :
    ∃ c cs, generateChildren (rootNode b) = some (c :: cs) ∧
      solve "XYZ" n b = .noResult ⟨[c], [rootNode b]⟩ ∧
      returnValue (solve "XYZ" n b) = some none ∧
      finalState (solve "XYZ" n b) = some ⟨[c], [rootNode b]⟩ := by
  obtain ⟨c, cs, hgen, -, hrun⟩ := xyz_abort hb hne
  exact ⟨c, cs, hgen, hrun n hn, by rw [hrun n hn]; rfl, by rw [hrun n hn]; rfl⟩

/-- C3, counterexample to the claim as stated: after `solve("XYZ", 1)` on the
non-goal `testData` board, one node sits in `visited` (expansion work was
performed) and one child sits in `open` (the state is retained, not
discarded). -/
theorem c3_counterexample :
    returnValue (solve "XYZ" 1 testData) = some none ∧
    (finalState (solve "XYZ" 1 testData)).map
      (fun s => (s.openList.length, s.visited.length)) = some (1, 1) := ⟨rfl, rfl⟩

/-- C3, witness: the amended theorem at the concrete `testData` board. -/
theorem c3_witness :
    validBoard testData ∧ testData ≠ expectedResult ∧
      ∃ c cs, generateChildren (rootNode testData) = some (c :: cs) ∧
        solve "XYZ" 1 testData = .noResult ⟨[c], [rootNode testData]⟩ ∧
        returnValue (solve "XYZ" 1 testData) = some none ∧
        finalState (solve "XYZ" 1 testData) = some ⟨[c], [rootNode testData]⟩ :=
  ⟨by decide, by decide, c3_thm (by decide) (by decide) (by norm_num)⟩

/-- C5: for every method token and every iteration budget, `solve` on the
goal board returns the root node before entering the loop, with cost `0` and
an empty visited list. -/
theorem c5_thm (method : String) (maxIterations : ℕ) :
    solve method maxIterations expectedResult =
      .found (rootNode expectedResult) (initialState expectedResult) ∧
    (rootNode expectedResult).cost = 0 ∧
    (initialState expectedResult).visited.length = 0 := by
  refine ⟨?_, rfl, rfl⟩
  unfold solve
  rw [if_pos rfl]

/-- C10: every loop iteration pops the front of the open list
unconditionally, so a state with an empty open list and remaining budget has
no defined result (`IndexError` in Python, `stuck` here) — distinct from the
`None` of an exhausted budget; the degenerate all-zero board drains the open
list in one iteration and crashes on the second. -/
theorem c10_thm :
    (∀ (method : String) (fuel : ℕ) (visited : List Node),
        solveLoop method (fuel + 1) ⟨[], visited⟩ = .stuck) ∧
    solve "UC" 2 allZero = .stuck ∧
    returnValue SolveOut.stuck = none ∧
    ∀ s : SState, returnValue (SolveOut.noResult s) = some none ∧
      SolveOut.stuck ≠ SolveOut.noResult s := by
  refine ⟨?_, rfl, rfl, fun s => ⟨rfl, fun h => SolveOut.noConfusion h⟩⟩
  intro method fuel visited
  rw [solveLoop_succ]
  rfl

/-- C9, counterexample to the claim as stated: on a board with no tile `8`,
`findPosition` does not fail — it returns the ordinary value `None` — and the
misplaced-tile evaluator tolerates the absence silently: `None != tuple`
evaluates to `True`, the absent tile merely counts as misplaced (total `2`
here: the displaced blank plus the missing `8`), and evaluation completes
normally. -/
theorem c9_counterexample :
    findPosition noEight 8 = none ∧ simpleSum noEight = 2 ∧
      (simpleHeuristic (rootNode noEight)).heuristic = ((2 : ℤ) : ℝ) := by
  refine ⟨rfl, by decide, ?_⟩
  have h : simpleSum noEight = 2 := by decide
  simp [simpleHeuristic, scoreWith, rootNode, Node.make, Node.heuristic, Node.data, h]

/-- C9, amended: when `value` occurs in the board, `findPosition` returns
coordinates of a cell holding it.  When it is absent, `findPosition` does not
fail: it silently returns `None`.  What happens next depends on the caller:
the misplaced-tile evaluator tolerates the `None` silently (the comparison
with the goal tuple is simply unequal, so the absent tile counts as
misplaced), while the callers that unpack the pair (`findAvailableMoves`,
hence `generateChildren` — reached for the blank lookup) have no defined
result, a fatal `TypeError` in Python, modelled by the propagated `none`. -/
theorem c9_thm (b : Board) (v : ℕ) :
    (v ∈ b.flatten → ∃ r c, findPosition b v = some (r, c) ∧ cellAt b r c = v) ∧
    (v ∉ b.flatten →
      findPosition b v = none ∧
      (v < 9 → simpleContrib b v = 1) ∧
      ∀ nd : Node, nd.data = b → v = 0 →
        findAvailableMoves nd = none ∧ generateChildren nd = none) := by
  constructor
  · intro h
    obtain ⟨r, c, hrc⟩ := findPosition_mem h
    exact ⟨r, c, hrc, (findPosition_some_spec hrc).2.2⟩
  · intro h
    have hn := findPosition_eq_none.mpr h
    refine ⟨hn, ?_, fun nd hd hv => ?_⟩
    · intro hv
      obtain ⟨r, c, hg, -, -, -⟩ := findPosition_valid (by decide : validBoard expectedResult) hv
      have hne : findPosition b v ≠ findPosition expectedResult v := by
        rw [hn, hg]
        simp
      unfold simpleContrib
      rw [if_pos hne]
    · subst hv
      subst hd
      have hmoves : findAvailableMoves nd = none := by
        unfold findAvailableMoves
        rw [hn]
        rfl
      refine ⟨hmoves, ?_⟩
      unfold generateChildren
      rw [hmoves]

/-- C9, witness: a present value is located on `testData`; an absent `8` is
silently tolerated by the misplaced-tile contribution on `noEight`; an absent
blank makes move generation crash on `noBlank`. -/
theorem c9_witness :
    (∃ r c, findPosition testData 5 = some (r, c) ∧ cellAt testData r c = 5) ∧
    (findPosition noEight 8 = none ∧ simpleContrib noEight 8 = 1) ∧
    (findPosition noBlank 0 = none ∧ findAvailableMoves (rootNode noBlank) = none ∧
      generateChildren (rootNode noBlank) = none) := by
  refine ⟨(c9_thm testData 5).1 (by decide), ?_, ?_⟩
  · have h := (c9_thm noEight 8).2 (by decide)
    exact ⟨h.1, h.2.1 (by norm_num)⟩
  · have h := (c9_thm noBlank 0).2 (by decide)
    exact ⟨h.1, (h.2.2 (rootNode noBlank) rfl rfl).1, (h.2.2 (rootNode noBlank) rfl rfl).2⟩

/-! Move generation: the guarded candidate list equals the in-bounds
orthogonal neighbors of the blank, in order up, left, down, right. -/

theorem findAvailableMoves_spec {nd : Node} {br bc : ℕ}
    (hfp : findPosition nd.data 0 = some (br, bc)) (hbr : br < 3) (hbc : bc < 3) :
    findAvailableMoves nd = some (specMoves (br, bc)) := by
  unfold findAvailableMoves specMoves
  rw [hfp]
  simp only [Option.map_some']
  congr 1
  interval_cases br <;> interval_cases bc <;> rfl

/-- C6: on a valid board, `generateChildren` returns exactly one child per
in-bounds orthogonal neighbor of the blank, in the order up, left, down,
right; each child has the current node as parent, cost one higher, heuristic
`0`, and a board obtained by swapping the blank with that neighbor; the child
count is 2 in a corner, 3 on an edge, 4 at the center. -/
theorem c6_thm {b : Board} (hb : validBoard b) (nd : Node) (hd : nd.data = b) :
    ∃ blank moves, findPosition nd.data 0 = some blank ∧
      findAvailableMoves nd = some moves ∧
      moves = specMoves blank ∧
      generateChildren nd = some (moves.map (childFromMove nd blank)) ∧
      (∀ child ∈ moves.map (childFromMove nd blank),
        child.parent = some nd ∧ child.cost = nd.cost + 1 ∧ child.heuristic = 0 ∧
        ∃ mv ∈ moves, child.data =
          setCell (setCell nd.data mv.1 mv.2 (cellAt nd.data blank.1 blank.2))
            blank.1 blank.2 (cellAt nd.data mv.1 mv.2)) ∧
      ((blank.1 ≠ 1 ∧ blank.2 ≠ 1 → moves.length = 2) ∧
       (((blank.1 = 1) ↔ ¬(blank.2 = 1)) → moves.length = 3) ∧
       (blank.1 = 1 ∧ blank.2 = 1 → moves.length = 4)) := by
  subst hd
  obtain ⟨br, bc, hfp0, hbr, hbc, -⟩ := findPosition_valid hb (by norm_num : (0:ℕ) < 9)
  have hmoves := findAvailableMoves_spec hfp0 hbr hbc
  refine ⟨(br, bc), specMoves (br, bc), hfp0, hmoves, rfl, ?_, ?_, ?_, ?_, ?_⟩
  · unfold generateChildren
    rw [hmoves]
    show generateChildrenGo nd (specMoves (br, bc)) = _
    rw [generateChildrenGo_eq hfp0]
  · intro child hchild
    obtain ⟨mv, hmv, rfl⟩ := List.mem_map.mp hchild
    refine ⟨rfl, rfl, rfl, mv, hmv, ?_⟩
    simp [childFromMove, copyNode_eq, Node.make, Node.data]
  · intro h
    interval_cases br <;> interval_cases bc <;> simp_all [specMoves]
  · intro h
    interval_cases br <;> interval_cases bc <;> simp_all [specMoves]
  · intro h
    interval_cases br <;> interval_cases bc <;> simp_all [specMoves]

/-- C6, witness: the move/children description at the concrete `testData`
board (blank in the bottom-right corner). -/
theorem c6_witness :
    validBoard testData ∧
      ∃ blank moves, findPosition (rootNode testData).data 0 = some blank ∧
        findAvailableMoves (rootNode testData) = some moves ∧
        moves = specMoves blank ∧
        generateChildren (rootNode testData) =
          some (moves.map (childFromMove (rootNode testData) blank)) ∧
        (blank.1 ≠ 1 ∧ blank.2 ≠ 1 → moves.length = 2) := by
  obtain ⟨blank, moves, h1, h2, h3, h4, -, h5, -, -⟩ :=
    c6_thm (by decide) (rootNode testData) rfl
  exact ⟨by decide, blank, moves, h1, h2, h3, h4, h5⟩

/-! Duplicate suppression: each board value occurs at most once across the
open and visited lists, at every point of a run. -/

/-! Duplicate suppression: each board value occurs at most once across the
open and visited lists, at every point of a run. -/

theorem applyMethodMatch_data {m : String} {child scored : Node}
    (h : applyMethodMatch m child = some scored) : scored.data = child.data := by
  unfold applyMethodMatch at h
  split at h <;> first
    | exact Option.noConfusion h
    | (injection h with h'; subst h'; rfl)

theorem engineInv_pop {x : Node} {rest vis : List Node} (h : engineInv ⟨x :: rest, vis⟩) :
    engineInv ⟨rest, vis ++ [x]⟩ := by
  unfold engineInv at *
  refine (List.Perm.map Node.data ?_).nodup_iff.mpr h
  show (rest ++ (vis ++ [x])).Perm ((x :: rest) ++ vis)
  rw [← List.append_assoc]
  exact List.perm_append_singleton x (rest ++ vis)

theorem engineInv_append {op vis : List Node} {x : Node} (h : engineInv ⟨op, vis⟩)
    (h1 : x.data ∉ op.map Node.data) (h2 : x.data ∉ vis.map Node.data) :
    engineInv ⟨op ++ [x], vis⟩ := by
  unfold engineInv at *
  have hperm : ((op ++ [x]) ++ vis).Perm (x :: (op ++ vis)) :=
    (List.perm_append_singleton x op).append_right vis
  refine (hperm.map Node.data).nodup_iff.mpr ?_
  simp only [List.map_cons, List.nodup_cons]
  refine ⟨?_, by simpa using h⟩
  simp only [List.map_append, List.mem_append]
  rintro (hc | hc)
  · exact h1 hc
  · exact h2 hc

theorem engineInv_sortOpen {op vis : List Node} (h : engineInv ⟨op, vis⟩) :
    engineInv ⟨sortOpen op, vis⟩ := by
  unfold engineInv at *
  exact (((List.perm_insertionSort scoreLe op).append_right vis).map Node.data).nodup_iff.mpr h

theorem admitChildren_inv (m : String) :
    ∀ (ch : List Node) (s : SState), engineInv s →
      (∀ s', admitChildren m ch s = .admitted s' → engineInv s') ∧
      (∀ s', admitChildren m ch s = .aborted s' → engineInv s') := by
  intro ch
  induction ch with
  | nil =>
    intro s hs
    constructor
    · intro s' h
      injection h with h'
      exact h' ▸ hs
    · intro s' h
      exact AdmitOut.noConfusion h
  | cons child rest ih =>
    intro s hs
    rw [admitChildren_cons]
    by_cases hmem : child.data ∈ s.openList.map Node.data ∨
        child.data ∈ s.visited.map Node.data
    · rw [if_pos hmem]
      exact ih s hs
    · rw [if_neg hmem]
      push_neg at hmem
      rcases happ : applyMethodMatch m child with - | scored
      · constructor
        · intro s' h
          exact AdmitOut.noConfusion h
        · intro s' h
          injection h with h'
          subst h'
          rcases s with ⟨op, vis⟩
          exact engineInv_append hs hmem.1 hmem.2
      · rcases s with ⟨op, vis⟩
        have hd := applyMethodMatch_data happ
        have hstep : engineInv ⟨sortOpen (op ++ [scored]), vis⟩ := by
          refine engineInv_sortOpen (engineInv_append hs ?_ ?_)
          · rw [hd]; exact hmem.1
          · rw [hd]; exact hmem.2
        exact ih _ hstep

theorem solveStep_inv (m : String) {s : SState} (hs : engineInv s) :
    (∀ r s', solveStep m s = .done r s' → engineInv s') ∧
    (∀ s', solveStep m s = .next s' → engineInv s') := by
  rcases s with ⟨op, vis⟩
  rcases op with - | ⟨x, rest⟩
  · constructor
    · intro r s' h
      exact StepOut.noConfusion h
    · intro s' h
      exact StepOut.noConfusion h
  · rw [solveStep_cons]
    have hpop : engineInv ⟨rest, vis ++ [x]⟩ := engineInv_pop hs
    by_cases hgoal : x.data = expectedResult
    · rw [if_pos hgoal]
      constructor
      · intro r s' h
        injection h with h1 h2
        exact h2 ▸ hpop
      · intro s' h
        exact StepOut.noConfusion h
    · rw [if_neg hgoal]
      rcases hgen : generateChildren x with - | children
      · constructor
        · intro r s' h
          simp only [hgen] at h
          exact StepOut.noConfusion h
        · intro s' h
          simp only [hgen] at h
          exact StepOut.noConfusion h
      · constructor
        · intro r s' h
          simp only [hgen] at h
          rcases hadmA : admitChildren m children ⟨rest, vis ++ [x]⟩ with s2 | s2
          · simp only [hadmA] at h
            injection h with h1 h2
            subst h2
            exact (admitChildren_inv m children _ hpop).2 s2 hadmA
          · simp only [hadmA] at h
            exact StepOut.noConfusion h
        · intro s' h
          simp only [hgen] at h
          rcases hadmA : admitChildren m children ⟨rest, vis ++ [x]⟩ with s2 | s2
          · simp only [hadmA] at h
            exact StepOut.noConfusion h
          · simp only [hadmA] at h
            injection h with h'
            subst h'
            exact (admitChildren_inv m children _ hpop).1 s2 hadmA

theorem solveLoop_inv (m : String) : ∀ (fuel : ℕ) (s : SState), engineInv s →
    ∀ s', finalState (solveLoop m fuel s) = some s' → engineInv s' := by
  intro fuel
  induction fuel with
  | zero =>
    intro s hs s' h
    injection h with h'
    exact h' ▸ hs
  | succ k ih =>
    intro s hs s' h
    rw [solveLoop_succ] at h
    rcases hstep : solveStep m s with ⟨r, s2⟩ | s2 | _
    · rw [hstep] at h
      rcases r with - | nd
      · injection h with h'
        exact h' ▸ (solveStep_inv m hs).1 none s2 hstep
      · injection h with h'
        exact h' ▸ (solveStep_inv m hs).1 (some nd) s2 hstep
    · rw [hstep] at h
      exact ih s2 ((solveStep_inv m hs).2 s2 hstep) s' h
    · rw [hstep] at h
      exact Option.noConfusion h

/-- C8: duplicate suppression is by board-value equality and keeps each board
at most once across the open and visited lists: the invariant holds in the
initial state, is preserved by every iteration of the expansion loop (both
into the continuing state and into any returned state), and therefore holds
in the final state of every run that returns. -/
theorem c8_thm :
    (∀ b, engineInv (initialState b)) ∧
    (∀ m : String, ∀ s : SState, engineInv s →
      (∀ r s', solveStep m s = .done r s' → engineInv s') ∧
      (∀ s', solveStep m s = .next s' → engineInv s')) ∧
    (∀ (m : String) (fuel : ℕ) (s : SState), engineInv s →
      ∀ s', finalState (solveLoop m fuel s) = some s' → engineInv s') :=
  ⟨fun b => by simp [engineInv, initialState], fun m s hs => solveStep_inv m hs, solveLoop_inv⟩

/-- C8, witness: the invariant at the concrete all-zero board's initial state
and after one concrete step. -/
theorem c8_witness :
    engineInv (initialState allZero) ∧ engineInv ⟨[], [rootNode allZero]⟩ :=
  ⟨c8_thm.1 allZero,
    (c8_thm.2.1 "UC" (initialState allZero) (c8_thm.1 allZero)).2 ⟨[], [rootNode allZero]⟩ rfl⟩

/-! Frontier ordering: the open list stays sorted by ascending score with
ties in insertion order, and the instrumented engine projects onto the real
one. -/

theorem admitChildrenT_cons (m : String) (child : Node) (rest : List Node) (s : TState) :
    admitChildrenT m (child :: rest) s =
      (if child.data ∈ s.openList.map (fun t => t.1.data) ∨
          child.data ∈ s.visited.map (fun t => t.1.data) then
        admitChildrenT m rest s
      else
        match applyMethodMatch m child with
        | some scored =>
          admitChildrenT m rest
            ⟨sortOpenT (s.openList ++ [(scored, s.counter)]), s.visited, s.counter + 1⟩
        | none => .aborted ⟨s.openList ++ [(child, s.counter)], s.visited, s.counter + 1⟩) :=
  rfl

theorem solveStepT_cons (m : String) (current : TNode) (restOpen vis : List TNode) (k : ℕ) :
    solveStepT m ⟨current :: restOpen, vis, k⟩ =
      (if current.1.data = expectedResult then
        .done (some current.1) ⟨restOpen, vis ++ [current], k⟩
      else
        match generateChildren current.1 with
        | none => .stuck
        | some children =>
          match admitChildrenT m children ⟨restOpen, vis ++ [current], k⟩ with
          | .aborted s2 => .done none s2
          | .admitted s2 => .next s2) := rfl

theorem orderedInsert_untag (a : TNode) (l : List TNode) :
    (List.orderedInsert tagLe a l).map Prod.fst =
      List.orderedInsert scoreLe a.1 (l.map Prod.fst) := by
  induction l with
  | nil => rfl
  | cons x xs ih =>
    simp only [List.orderedInsert, List.map_cons, tagLe, scoreLe]
    by_cases h : a.1.g ≤ x.1.g
    · simp [h]
    · simp [h, ih]

theorem insertionSort_untag (l : List TNode) :
    (sortOpenT l).map Prod.fst = sortOpen (l.map Prod.fst) := by
  induction l with
  | nil => rfl
  | cons x xs ih =>
    simp only [sortOpenT, sortOpen, List.insertionSort, List.map_cons] at *
    rw [orderedInsert_untag, ih]

theorem orderedInsert_min {a : TNode} : ∀ {l : List TNode}, (∀ y ∈ l, tagLe a y) →
    List.orderedInsert tagLe a l = a :: l
  | [], _ => rfl
  | x :: xs, h => by
    rw [List.orderedInsert, if_pos (h x (List.mem_cons_self x xs))]

theorem insertStable_mem {t y : TNode} : ∀ {l : List TNode},
    (y ∈ insertStable t l ↔ y ∈ l ∨ y = t) := by
  intro l
  induction l with
  | nil => simp [insertStable]
  | cons a l ih =>
    unfold insertStable
    by_cases h : a.1.g ≤ t.1.g
    · rw [if_pos h]
      simp only [List.mem_cons, ih]
      tauto
    · rw [if_neg h]
      simp only [List.mem_cons]
      tauto

theorem insertStable_cons (t a : TNode) (l : List TNode) :
    insertStable t (a :: l) =
      if a.1.g ≤ t.1.g then a :: insertStable t l else t :: a :: l := by
  simp only [insertStable]

theorem insertionSort_sorted_append {t : TNode} : ∀ {L : List TNode}, L.Sorted tagLe →
    List.insertionSort tagLe (L ++ [t]) = insertStable t L := by
  intro L
  induction L with
  | nil => intro _; rfl
  | cons a L ih =>
    intro hs
    have hmin := (List.sorted_cons.mp hs).1
    rw [List.cons_append, List.insertionSort, ih (List.sorted_cons.mp hs).2]
    by_cases h : a.1.g ≤ t.1.g
    · rw [orderedInsert_min ?side]
      case side =>
        intro y hy
        rcases insertStable_mem.mp hy with hy | rfl
        · exact hmin y hy
        · exact h
      rw [insertStable_cons, if_pos h]
    · have hins : insertStable t L = t :: L := by
        cases L with
        | nil => rfl
        | cons b M =>
          unfold insertStable
          rw [if_neg ?_]
          intro hb
          exact h (le_trans (hmin b (List.mem_cons_self b M)) hb)
      rw [hins, List.orderedInsert, if_neg (show ¬tagLe a t from h), orderedInsert_min hmin]
      rw [insertStable_cons, if_neg h]

theorem insertStable_pairwise {t : TNode} : ∀ {L : List TNode}, L.Pairwise lexLt →
    (∀ x ∈ L, x.2 < t.2) → (insertStable t L).Pairwise lexLt := by
  intro L
  induction L with
  | nil =>
    intro _ _
    simp [insertStable]
  | cons a L ih =>
    intro hp ht
    rw [List.pairwise_cons] at hp
    unfold insertStable
    by_cases h : a.1.g ≤ t.1.g
    · rw [if_pos h, List.pairwise_cons]
      constructor
      · intro y hy
        rcases insertStable_mem.mp hy with hy | rfl
        · exact hp.1 y hy
        · rcases lt_or_eq_of_le h with hlt | heq
          · exact Or.inl hlt
          · exact Or.inr ⟨heq, ht a (List.mem_cons_self a L)⟩
      · exact ih hp.2 fun x hx => ht x (List.mem_cons_of_mem a hx)
    · rw [if_neg h, List.pairwise_cons]
      constructor
      · intro y hy
        rcases List.mem_cons.mp hy with rfl | hy
        · exact Or.inl (not_le.mp h)
        · rcases hp.1 y hy with h1 | ⟨h1, -⟩
          · exact Or.inl (lt_trans (not_le.mp h) h1)
          · exact Or.inl (lt_of_lt_of_le (not_le.mp h) (le_of_eq h1))
      · exact List.pairwise_cons.mpr ⟨hp.1, hp.2⟩

theorem sortOpenT_append {L : List TNode} {t : TNode} (hp : L.Pairwise lexLt)
    (ht : ∀ x ∈ L, x.2 < t.2) :
    (sortOpenT (L ++ [t])).Pairwise lexLt ∧
      ∀ y ∈ sortOpenT (L ++ [t]), y ∈ L ∨ y = t := by
  have hsorted : L.Sorted tagLe := by
    refine hp.imp fun hxy => ?_
    rcases hxy with h | ⟨h, -⟩
    · exact le_of_lt h
    · exact le_of_eq h
  rw [show sortOpenT (L ++ [t]) = insertStable t L from insertionSort_sorted_append hsorted]
  exact ⟨insertStable_pairwise hp ht, fun y hy => insertStable_mem.mp hy⟩

theorem admitChildrenT_inv (m : String) :
    ∀ (ch : List Node) (s s' : TState), frontInv s →
      admitChildrenT m ch s = .admitted s' → frontInv s' := by
  intro ch
  induction ch with
  | nil =>
    intro s s' hs h
    injection h with h'
    exact h' ▸ hs
  | cons child rest ih =>
    intro s s' hs h
    rw [admitChildrenT_cons] at h
    by_cases hmem : child.data ∈ s.openList.map (fun t => t.1.data) ∨
        child.data ∈ s.visited.map (fun t => t.1.data)
    · rw [if_pos hmem] at h
      exact ih s s' hs h
    · rw [if_neg hmem] at h
      rcases happ : applyMethodMatch m child with - | scored
      · simp only [happ] at h
        exact TAdmitOut.noConfusion h
      · simp only [happ] at h
        refine ih _ s' ?_ h
        rcases s with ⟨op, vis, cnt⟩
        obtain ⟨hp, htags⟩ := hs
        have hres := sortOpenT_append (t := (scored, cnt)) hp htags
        refine ⟨hres.1, ?_⟩
        intro x hx
        rcases hres.2 x hx with hx' | rfl
        · exact Nat.lt_succ_of_lt (htags x hx')
        · exact Nat.lt_succ_self cnt

theorem solveStepT_inv (m : String) {s s' : TState} (hs : frontInv s)
    (h : solveStepT m s = .next s') : frontInv s' := by
  rcases s with ⟨op, vis, cnt⟩
  rcases op with - | ⟨x, rest⟩
  · exact TStepOut.noConfusion h
  · rw [solveStepT_cons] at h
    obtain ⟨hp, htags⟩ := hs
    have hs1 : frontInv ⟨rest, vis ++ [x], cnt⟩ :=
      ⟨(List.pairwise_cons.mp hp).2, fun y hy => htags y (List.mem_cons_of_mem x hy)⟩
    by_cases hgoal : x.1.data = expectedResult
    · rw [if_pos hgoal] at h
      exact TStepOut.noConfusion h
    · rw [if_neg hgoal] at h
      rcases hgen : generateChildren x.1 with - | children
      · simp only [hgen] at h
        exact TStepOut.noConfusion h
      · simp only [hgen] at h
        rcases hadm : admitChildrenT m children ⟨rest, vis ++ [x], cnt⟩ with s2 | s2
        · simp only [hadm] at h
          exact TStepOut.noConfusion h
        · simp only [hadm] at h
          injection h with h'
          exact h' ▸ admitChildrenT_inv m children _ s2 hs1 hadm

theorem admitChildrenT_untag (m : String) :
    ∀ (ch : List Node) (s : TState),
      untagAdmit (admitChildrenT m ch s) = admitChildren m ch (untagS s) := by
  intro ch
  induction ch with
  | nil => intro s; rfl
  | cons child rest ih =>
    intro s
    rw [admitChildrenT_cons, admitChildren_cons]
    have hmem_eq : (child.data ∈ (untagS s).openList.map Node.data ∨
        child.data ∈ (untagS s).visited.map Node.data) ↔
        (child.data ∈ s.openList.map (fun t => t.1.data) ∨
          child.data ∈ s.visited.map (fun t => t.1.data)) := by
      unfold untagS
      simp [List.map_map, Function.comp]
    by_cases hmem : child.data ∈ s.openList.map (fun t => t.1.data) ∨
        child.data ∈ s.visited.map (fun t => t.1.data)
    · rw [if_pos hmem, if_pos (hmem_eq.mpr hmem)]
      exact ih s
    · rw [if_neg hmem, if_neg fun hc => hmem (hmem_eq.mp hc)]
      rcases happ : applyMethodMatch m child with - | scored
      · simp only [happ]
        simp [untagAdmit, untagS, List.map_append]
      · simp only [happ]
        rw [ih]
        congr 1
        unfold untagS
        rw [insertionSort_untag]
        simp [List.map_append]

theorem solveStepT_untag (m : String) (s : TState) :
    untagStep (solveStepT m s) = solveStep m (untagS s) := by
  rcases s with ⟨op, vis, cnt⟩
  rcases op with - | ⟨x, rest⟩
  · rfl
  · show untagStep (solveStepT m ⟨x :: rest, vis, cnt⟩) =
      solveStep m ⟨x.1 :: rest.map Prod.fst, vis.map Prod.fst⟩
    rw [solveStepT_cons, solveStep_cons]
    by_cases hgoal : x.1.data = expectedResult
    · rw [if_pos hgoal, if_pos hgoal]
      simp [untagStep, untagS, List.map_append]
    · rw [if_neg hgoal, if_neg hgoal]
      rcases hgen : generateChildren x.1 with - | children
      · simp only [hgen]
        rfl
      · simp only [hgen]
        have hcomm := admitChildrenT_untag m children ⟨rest, vis ++ [x], cnt⟩
        have hstate : untagS ⟨rest, vis ++ [x], cnt⟩ =
            ⟨rest.map Prod.fst, vis.map Prod.fst ++ [x.1]⟩ := by
          unfold untagS
          simp [List.map_append]
        rw [hstate] at hcomm
        rw [← hcomm]
        rcases hadm : admitChildrenT m children ⟨rest, vis ++ [x], cnt⟩ with s2 | s2
        · rfl
        · rfl

/-- C7: the open list of the instrumented engine is, at every step of every
run, sorted by ascending score with ties broken by ascending insertion
sequence number: the invariant holds initially, whatever node is removed from
the front is of minimal score and earliest-inserted among equal scores, the
invariant is preserved by every loop iteration, and erasing the ghost tags
turns each instrumented step into exactly the real `solveStep` — so the real
engine's pops obey the same stable ordering, making `solve` a deterministic
function of board, method and budget. -/
theorem c7_thm :
    (∀ b, frontInv (initialStateT b)) ∧
    (∀ ts : TState, frontInv ts → ∀ x rest, ts.openList = x :: rest →
      ∀ y ∈ rest, x.1.g < y.1.g ∨ (x.1.g = y.1.g ∧ x.2 < y.2)) ∧
    (∀ (m : String) (ts ts' : TState), frontInv ts → solveStepT m ts = .next ts' →
      frontInv ts') ∧
    (∀ (m : String) (ts : TState), untagStep (solveStepT m ts) = solveStep m (untagS ts)) := by
  refine ⟨?_, ?_, ?_, ?_⟩
  · intro b
    refine ⟨List.pairwise_singleton _ _, ?_⟩
    intro x hx
    rcases List.mem_singleton.mp hx with rfl
    exact Nat.one_pos
  · intro ts hts x rest heq y hy
    have hp := hts.1
    rw [heq] at hp
    exact (List.pairwise_cons.mp hp).1 y hy
  · intro m ts ts' h1 h2
    exact solveStepT_inv m h1 h2
  · exact solveStepT_untag

/-- C7, witness: the frontier invariant at the concrete all-zero board's
instrumented initial state and after one concrete step. -/
theorem c7_witness :
    frontInv (initialStateT allZero) ∧ frontInv ⟨[], [(rootNode allZero, 0)], 1⟩ :=
  ⟨c7_thm.1 allZero,
    c7_thm.2.2.1 "UC" (initialStateT allZero) ⟨[], [(rootNode allZero, 0)], 1⟩
      (c7_thm.1 allZero) rfl⟩
